import Mathlib

set_option linter.unusedSectionVars false
set_option linter.unusedVariables false

/-!
HashMapPlus: `UnorderedMap` and the string hash functions

A shallow embedding of `src/hash_functions.cpp` and `src/UnorderedMap.h`.

* A `size_t` is a natural number; where the source can wrap, the reduction
  modulo `2 ^ 64` is written out (`_size--`, the arithmetic of the hash functions).
  `++_size` and `currentBucketIndex + 1` are plain successors: a table holds fewer
  than `2 ^ 64` nodes, and a bucket index is below `_bucket_count`.
* A `char` is its integer value (`-128 .. 127` where `char` is signed,
  `0 .. 255` where it is unsigned); `static_cast<size_t>` reduces it modulo `2 ^ 64`.
* A chain of `HashNode`s linked through `next` and ended by `nullptr` is a list
  of nodes, in `next` order. A node carries the identity of its object (`id`),
  the serial number of the `new` expression that created it; a `HashNode *`
  is `Option Nat`, `none` for `nullptr`, and two pointers are equal when they
  designate the same node object.
* A `HashNode *&` returned by `_find` (a link slot: a bucket slot or the `next`
  field of a node) is the pair of the bucket and the number of links followed.
* `Pred` is the default `std::equal_to<Key>`: key equality is `=`.
* `Hash` is any function from keys to natural numbers, stored in the table.
* `primes.h` is not among the sources: `next_greater_prime` is a parameter of the
  constructor.
* A loop that the source does not bound (`clear`, a traversal) takes fuel and returns
  `none` when the fuel runs out; the theorems give the fuel that suffices.
-/

namespace HashMapPlus

/-! ## hash_functions.cpp -/

/-- The conversion `static_cast<size_t>(c)` of a `char` value. -/
def size_t_of_char (c : Int) : Nat := (c % 2 ^ 64).toNat

/-- The loop of `polynomial_rolling_hash::operator()`: the state is `(hash, p)`;
`b = 19` and `m = 3298534883309`. -/
def polynomial_rolling_hash_loop : List Int → Nat × Nat → Nat × Nat
  | [], st => st
  | c :: rest, (hash, p) =>
      polynomial_rolling_hash_loop rest
        ((hash + (size_t_of_char c * p) % 2 ^ 64) % 2 ^ 64, ((p * 19) % 2 ^ 64) % 3298534883309)

/-- The function `polynomial_rolling_hash::operator()`. -/
def polynomial_rolling_hash (str : List Int) : Nat :=
  (polynomial_rolling_hash_loop str (0, 1)).1

/-- The value of the local `p` of `polynomial_rolling_hash::operator()` when the loop ends. -/
def polynomial_rolling_hash_p (str : List Int) : Nat :=
  (polynomial_rolling_hash_loop str (0, 1)).2

/-- The function `fnv1a_hash::operator()`. -/
def fnv1a_hash (str : List Int) : Nat :=
  str.foldl (fun hash c => ((hash ^^^ size_t_of_char c) * 0x00000100000001B3) % 2 ^ 64)
    0xCBF29CE484222325

/-! ## UnorderedMap.h: data -/

/-- A `HashNode`: the identity of the node object and its `val`; the `next` link is
the position in the chain. -/
structure HashNode (K V : Type) where
  id : Nat
  val : K × V

/-- The members of `UnorderedMap`, and the number of nodes allocated so far. -/
structure UnorderedMap (K V : Type) where
  _bucket_count : Nat
  _buckets : List (List (HashNode K V))
  _head : Option Nat
  _size : Nat
  _hash : K → Nat
  allocated : Nat

/-- The function `_range_hash`. -/
def _range_hash (hash_code bucket_count : Nat) : Nat := hash_code % bucket_count

section table

variable {K V : Type}

/-- The node designated by a pointer within one chain, with its `next` pointer. -/
def chain_lookup : List (HashNode K V) → Nat → Option (HashNode K V × Option Nat)
  | [], _ => none
  | n :: rest, p =>
      if n.id = p then some (n, rest.head?.map HashNode.id) else chain_lookup rest p

/-- The node designated by a pointer among the chains, with its `next` pointer. -/
def buckets_lookup : List (List (HashNode K V)) → Nat → Option (HashNode K V × Option Nat)
  | [], _ => none
  | c :: cs, p =>
      match chain_lookup c p with
      | some r => some r
      | none => buckets_lookup cs p

namespace UnorderedMap

/-- The chain of a bucket. -/
def chain (m : UnorderedMap K V) (n : Nat) : List (HashNode K V) := m._buckets.getD n []

/-- The pointer `_buckets[n]`. -/
def bucket_ptr (m : UnorderedMap K V) (n : Nat) : Option Nat := (m.chain n).head?.map HashNode.id

/-- Dereferencing a node pointer: the node and its `next`; `none` when no live node
has this identity (undefined behaviour in the source). -/
def deref (m : UnorderedMap K V) (p : Nat) : Option (HashNode K V × Option Nat) :=
  buckets_lookup m._buckets p

/-- All the nodes, bucket after bucket, each chain in `next` order. -/
def nodes (m : UnorderedMap K V) : List (HashNode K V) := m._buckets.flatten

/-- The function `_bucket(const Key &)`. -/
def _bucket (m : UnorderedMap K V) (key : K) : Nat := _range_hash (m._hash key) m._bucket_count

/-- The function `bucket`. -/
def bucket (m : UnorderedMap K V) (key : K) : Nat := m._hash key % m._bucket_count

/-- The function `size`. -/
def size (m : UnorderedMap K V) : Nat := m._size

/-- The function `empty`. -/
def empty (m : UnorderedMap K V) : Bool := decide (m._size = 0)

/-- The function `bucket_count`. -/
def bucket_count (m : UnorderedMap K V) : Nat := m._bucket_count

/-- The function `begin()`: the `_ptr` of the iterator. -/
def begin_ (m : UnorderedMap K V) : Option Nat := m._head

/-- The function `end()`: the `_ptr` of the iterator. -/
def end_ (_m : UnorderedMap K V) : Option Nat := none

/-- The loop of `bucket_size`, over the `next` links of a chain. -/
def bucket_size_loop : List (HashNode K V) → Nat → Nat
  | [], size => size
  | _ :: rest, size => bucket_size_loop rest (size + 1)

/-- The function `bucket_size`. -/
def bucket_size (m : UnorderedMap K V) (n : Nat) : Nat := bucket_size_loop (m.chain n) 0

/-- The `while` loop of `basic_iterator::operator++`, from `nextBucketIndex`; each
iteration uses one unit of fuel, and `_bucket_count` units are never used up. -/
def skip_empty (m : UnorderedMap K V) : Nat → Nat → Nat
  | 0, nextBucketIndex => nextBucketIndex
  | fuel + 1, nextBucketIndex =>
      if nextBucketIndex < m._bucket_count ∧ m.bucket_ptr nextBucketIndex = none then
        skip_empty m fuel (nextBucketIndex + 1)
      else nextBucketIndex

/-- The function `basic_iterator::operator++`, on the `_ptr` of an iterator of `m`. -/
def operator_inc (m : UnorderedMap K V) (_ptr : Option Nat) : Option Nat :=
  match _ptr with
  | none => none
  | some p =>
      match m.deref p with
      | none => none
      | some (_, some next) => some next
      | some (node, none) =>
          let currentBucketIndex := _range_hash (m._hash node.val.1) m._bucket_count
          let nextBucketIndex := m.skip_empty m._bucket_count (currentBucketIndex + 1)
          if nextBucketIndex < m._bucket_count then m.bucket_ptr nextBucketIndex else none

variable [DecidableEq K]

/-- The loop of `_find(code, bucket, key)` along one chain: the number of links
followed before it returns. -/
def find_hops (key : K) : List (HashNode K V) → Nat
  | [] => 0
  | n :: rest => if n.val.1 = key then 0 else find_hops key rest + 1

/-- The function `_find(code, bucket, key)`: the link slot it returns. -/
def _find3 (m : UnorderedMap K V) (_code bucket : Nat) (key : K) : Nat × Nat :=
  (bucket, find_hops key (m.chain bucket))

/-- The function `_find(key)`. -/
def _find (m : UnorderedMap K V) (key : K) : Nat × Nat :=
  let code := m._hash key
  let bucket := _range_hash code m._bucket_count
  m._find3 code bucket key

/-- Reading a link slot: the pointer stored in it. -/
def slot_get (m : UnorderedMap K V) (slot : Nat × Nat) : Option Nat :=
  ((m.chain slot.1).get? slot.2).map HashNode.id

/-- The assignment `slot = slot->next` to a link slot that holds a node: the node is
unlinked from its chain. -/
def slot_unlink (m : UnorderedMap K V) (slot : Nat × Nat) : UnorderedMap K V :=
  { m with _buckets := m._buckets.set slot.1 ((m.chain slot.1).eraseIdx slot.2) }

/-- The function `find`: the `_ptr` of the iterator. -/
def find (m : UnorderedMap K V) (key : K) : Option Nat := m.slot_get (m._find key)

/-- The function `_insert_into_bucket`: the table and the new node. -/
def _insert_into_bucket (m : UnorderedMap K V) (bucket : Nat) (value : K × V) :
    UnorderedMap K V × Nat :=
  let newNode : HashNode K V := { id := m.allocated, val := value }
  let m1 : UnorderedMap K V :=
    { m with _buckets := m._buckets.set bucket (newNode :: m.chain bucket),
             allocated := m.allocated + 1 }
  let takes_head : Bool :=
    match m1._head with
    | none => true
    | some h =>
        match m1.deref h with
        | none => false
        | some (hn, _) => decide (bucket ≤ m1._bucket hn.val.1)
  (if takes_head then { m1 with _head := some newNode.id } else m1, newNode.id)

/-- The function `insert(value_type &&)`: the table, the `_ptr` of the iterator and the flag. -/
def insert_rv (m : UnorderedMap K V) (value : K × V) : UnorderedMap K V × Option Nat × Bool :=
  let index := m._bucket value.1
  let node := m.slot_get (m._find3 (m._hash value.1) index value.1)
  match node with
  | none =>
      let r := m._insert_into_bucket index value
      ({ r.1 with _size := r.1._size + 1 }, some r.2, true)
  | some n => (m, some n, false)

/-- The loop of `insert(const value_type &)` along one chain: the node with an equal key. -/
def insert_scan (key : K) : List (HashNode K V) → Option Nat
  | [] => none
  | current :: rest => if current.val.1 = key then some current.id else insert_scan key rest

/-- The function `insert(const value_type &)`: the table, the `_ptr` of the iterator and the flag. -/
def insert (m : UnorderedMap K V) (value : K × V) : UnorderedMap K V × Option Nat × Bool :=
  let index := m._bucket value.1
  match insert_scan value.1 (m.chain index) with
  | some current => (m, some current, false)
  | none =>
      let r := m._insert_into_bucket index value
      ({ r.1 with _size := r.1._size + 1 }, some r.2, true)

/-- The function `operator[]`: the table and the node whose `val.second` the returned
reference designates. -/
def subscript [Inhabited V] (m : UnorderedMap K V) (key : K) : UnorderedMap K V × Option Nat :=
  let r := m.insert (key, default)
  (r.1, r.2.1)

/-- Reading `val.second` of the node a pointer designates. -/
def read_value (m : UnorderedMap K V) (p : Option Nat) : Option V :=
  match p with
  | none => none
  | some q => (m.deref q).map (fun r => r.1.val.2)

/-- Assigning to `val.second` of the node a pointer designates (through the reference
returned by `operator[]`, or through an iterator). -/
def write_value (m : UnorderedMap K V) (p : Option Nat) (v : V) : UnorderedMap K V :=
  match p with
  | none => m
  | some q =>
      { m with _buckets := m._buckets.map (fun c =>
          c.map (fun n => if n.id = q then { n with val := (n.val.1, v) } else n)) }

/-- The statement `_size--` on a `size_t`. -/
def size_dec (n : Nat) : Nat := if n = 0 then 2 ^ 64 - 1 else n - 1

/-- The function `erase(iterator)`: the table and the `_ptr` of the returned iterator.
An iterator that designates no live node is undefined behaviour in the source; here
the table is left as it is. -/
def erase_it (m : UnorderedMap K V) (pos : Option Nat) : UnorderedMap K V × Option Nat :=
  match pos with
  | none => (m, none)
  | some p =>
      match m.deref p with
      | none => (m, none)
      | some (pn, _) =>
          let slot := m._find pn.val.1
          match m.slot_get slot with
          | none => (m, none)
          | some del =>
              let pos1 := m.operator_inc pos
              let m1 := if m._head = some del then { m with _head := pos1 } else m
              let m2 := m1.slot_unlink slot
              ({ m2 with _size := size_dec m2._size }, pos1)

/-- The function `erase(const Key &)`: the table and the count. -/
def erase (m : UnorderedMap K V) (key : K) : UnorderedMap K V × Nat :=
  let slot := m._find key
  match m.slot_get slot with
  | some node =>
      let m1 := if m._head = some node then { m with _head := m.operator_inc (some node) } else m
      let m2 := m1.slot_unlink slot
      ({ m2 with _size := size_dec m2._size }, 1)
  | none => (m, 0)

/-- The loop of `clear`: the table when the loop ends and the number of iterations,
`none` when the fuel does not suffice. -/
def clear_loop : Nat → UnorderedMap K V → Option (UnorderedMap K V × Nat)
  | 0, m => if m._size = 0 then some (m, 0) else none
  | fuel + 1, m =>
      if m._size = 0 then some (m, 0)
      else (clear_loop fuel (m.erase_it m.begin_).1).map (fun r => (r.1, r.2 + 1))

/-- The traversal `for (it = begin(); it != end(); ++it)` from a given iterator: the nodes
visited, `none` when the fuel does not suffice or a pointer designates no live node. -/
def traverse_from (m : UnorderedMap K V) : Nat → Option Nat → Option (List (HashNode K V))
  | _, none => some []
  | 0, some _ => none
  | fuel + 1, some p =>
      match m.deref p with
      | none => none
      | some (node, _) => (traverse_from m fuel (m.operator_inc (some p))).map (fun l => node :: l)

/-- The constructor `UnorderedMap(bucket_count, hash, equal)`. The header `primes.h` is
not part of the sources: `next_greater_prime` is a parameter. `allocated` is the number
of nodes the program has allocated before. -/
def construct (next_greater_prime : Nat → Nat) (bucket_count : Nat) (hash : K → Nat)
    (allocated : Nat) : UnorderedMap K V :=
  let n := next_greater_prime bucket_count
  { _bucket_count := n, _buckets := List.replicate n [], _head := none, _size := 0,
    _hash := hash, allocated := allocated }

/-- The inner loop of the copy constructor and of copy assignment, along one chain of `other`. -/
def copy_chain : UnorderedMap K V → List (HashNode K V) → UnorderedMap K V
  | m, [] => m
  | m, node :: rest => copy_chain (m.insert node.val).1 rest

/-- The outer loop of the copy constructor and of copy assignment. -/
def copy_buckets (m other : UnorderedMap K V) : UnorderedMap K V :=
  (List.range m._bucket_count).foldl (fun acc i => copy_chain acc (other.chain i)) m

/-- The copy constructor `UnorderedMap(const UnorderedMap &)`. -/
def copy_construct (other : UnorderedMap K V) : UnorderedMap K V :=
  copy_buckets
    { _bucket_count := other._bucket_count, _size := 0,
      _buckets := List.replicate other._bucket_count [], _hash := other._hash, _head := none,
      allocated := other.allocated } other

/-- The function `_move_content(src, dst)`: the new `src` and the new `dst`. -/
def _move_content (src _dst : UnorderedMap K V) : UnorderedMap K V × UnorderedMap K V :=
  ({ src with _size := 0, _buckets := List.replicate src._bucket_count [], _head := none },
   { _size := src._size, _hash := src._hash, _bucket_count := src._bucket_count,
     _buckets := src._buckets, _head := src._head, allocated := src.allocated })

/-- The copy assignment `operator=(const UnorderedMap &)` on another object, after
its call of `clear()` has returned `cleared`. -/
def copy_assign_cleared (cleared other : UnorderedMap K V) : UnorderedMap K V :=
  copy_buckets
    { cleared with _bucket_count := other._bucket_count, _size := 0,
                   _buckets := List.replicate other._bucket_count [],
                   _hash := other._hash } other

/-- The copy assignment `operator=(const UnorderedMap &)` on another object: `none` when
the fuel does not suffice for `clear()`. -/
def copy_assign (fuel : Nat) (m other : UnorderedMap K V) : Option (UnorderedMap K V) :=
  (clear_loop fuel m).map (fun r => copy_assign_cleared r.1 other)

/-- The move assignment `operator=(UnorderedMap &&)` on another object: the new `other`
and the new `*this`; `none` when the fuel does not suffice for `clear()`. -/
def move_assign (fuel : Nat) (m other : UnorderedMap K V) :
    Option (UnorderedMap K V × UnorderedMap K V) :=
  (clear_loop fuel m).map (fun r => _move_content other r.1)

/-- The function `clear`: `none` when the fuel does not suffice. -/
def clear (fuel : Nat) (m : UnorderedMap K V) : Option (UnorderedMap K V) :=
  (clear_loop fuel m).map (fun r => r.1)

/-- The full traversal from `begin()`: the nodes visited. -/
def traverse (m : UnorderedMap K V) (fuel : Nat) : Option (List (HashNode K V)) :=
  m.traverse_from fuel m.begin_

/-- The entry of the node a pointer designates. -/
def entry_at (m : UnorderedMap K V) (p : Option Nat) : Option (K × V) :=
  match p with
  | none => none
  | some q => (m.deref q).map (fun r => r.1.val)

/-- A pointer that designates a live node of the table. -/
def live (m : UnorderedMap K V) (p : Option Nat) : Prop :=
  ∃ q, p = some q ∧ (m.deref q).isSome = true

end UnorderedMap

variable [DecidableEq K]

/-- The tables a program can build: constructed ones, and what the member functions make of
them. An iterator passed to `erase` is `end()` or designates a live node. -/
inductive Reachable [Inhabited V] : UnorderedMap K V → Prop
  | construct (next_greater_prime : Nat → Nat) (bucket_count : Nat) (hash : K → Nat)
      (allocated : Nat) (h : 0 < next_greater_prime bucket_count) :
      Reachable (UnorderedMap.construct next_greater_prime bucket_count hash allocated)
  | insert (m : UnorderedMap K V) (value : K × V) : Reachable m → Reachable (m.insert value).1
  | insert_rv (m : UnorderedMap K V) (value : K × V) :
      Reachable m → Reachable (m.insert_rv value).1
  | subscript (m : UnorderedMap K V) (key : K) : Reachable m → Reachable (m.subscript key).1
  | write_value (m : UnorderedMap K V) (p : Option Nat) (v : V) :
      Reachable m → Reachable (m.write_value p v)
  | erase (m : UnorderedMap K V) (key : K) : Reachable m → Reachable (m.erase key).1
  | erase_it (m : UnorderedMap K V) (pos : Option Nat) :
      Reachable m → (pos = none ∨ m.live pos) → Reachable (m.erase_it pos).1
  | clear (m m1 : UnorderedMap K V) (fuel : Nat) :
      Reachable m → m.clear fuel = some m1 → Reachable m1
  | copy_construct (other : UnorderedMap K V) :
      Reachable other → Reachable (UnorderedMap.copy_construct other)
  | copy_assign (m other m1 : UnorderedMap K V) (fuel : Nat) :
      Reachable m → Reachable other → m.copy_assign fuel other = some m1 → Reachable m1
  | moved_from (src dst : UnorderedMap K V) :
      Reachable src → Reachable (UnorderedMap._move_content src dst).1
  | moved_to (src dst : UnorderedMap K V) :
      Reachable src → Reachable (UnorderedMap._move_content src dst).2
  | move_assign_from (m other : UnorderedMap K V) (r : UnorderedMap K V × UnorderedMap K V)
      (fuel : Nat) :
      Reachable m → Reachable other → m.move_assign fuel other = some r → Reachable r.1
  | move_assign_to (m other : UnorderedMap K V) (r : UnorderedMap K V × UnorderedMap K V)
      (fuel : Nat) :
      Reachable m → Reachable other → m.move_assign fuel other = some r → Reachable r.2

/-- The representation invariant of a table: the bucket array has `_bucket_count > 0` slots,
every node sits in the bucket of its key, keys and node identities are unique, the
identities along a chain decrease (a newer node is nearer to the bucket slot), `_head`
designates the first node of the first non-empty bucket, and `_size` counts the nodes. -/
structure Inv (m : UnorderedMap K V) : Prop where
  len : m._buckets.length = m._bucket_count
  pos : 0 < m._bucket_count
  home : ∀ i n, n ∈ m.chain i → m._hash n.val.1 % m._bucket_count = i
  keys : (m.nodes.map (fun n => n.val.1)).Nodup
  ids : (m.nodes.map HashNode.id).Nodup
  fresh : ∀ n ∈ m.nodes, n.id < m.allocated
  desc : ∀ i, ((m.chain i).map HashNode.id).Pairwise (fun a b => b < a)
  head : m._head = m.nodes.head?.map HashNode.id
  size : m._size = m.nodes.length

/-- A call of one of the two `insert` overloads: `true` for `insert(value_type &&)`. -/
def insert_call (m : UnorderedMap K V) (call : Bool × (K × V)) : UnorderedMap K V :=
  if call.1 then (m.insert_rv call.2).1 else (m.insert call.2).1

/-- A sequence of `insert` calls, in order. -/
def insert_calls (m : UnorderedMap K V) (calls : List (Bool × (K × V))) : UnorderedMap K V :=
  calls.foldl insert_call m

/-- A call of a member function that takes a key or an entry: `insert` (`true` for the
`value_type &&` overload), `operator[]` alone or with an assignment through the returned
reference, `erase(const Key &)`, and `erase(iterator)` on the iterator `find(key)`. -/
inductive Call (K V : Type) where
  | insert (rvalue : Bool) (value : K × V)
  | subscript (key : K)
  | subscript_assign (key : K) (v : V)
  | erase (key : K)
  | erase_find (key : K)

/-- The table after a call. -/
def apply_call [Inhabited V] (m : UnorderedMap K V) : Call K V → UnorderedMap K V
  | Call.insert rvalue value => insert_call m (rvalue, value)
  | Call.subscript key => (m.subscript key).1
  | Call.subscript_assign key v => (m.subscript key).1.write_value (m.subscript key).2 v
  | Call.erase key => (m.erase key).1
  | Call.erase_find key => (m.erase_it (m.find key)).1

/-- The table after a sequence of calls, in order. -/
def apply_calls [Inhabited V] (m : UnorderedMap K V) (calls : List (Call K V)) :
    UnorderedMap K V :=
  calls.foldl apply_call m

/-- The set of keys inserted and not erased, after one more call. -/
def keys_after_call (s : Finset K) : Call K V → Finset K
  | Call.insert _ value => insert value.1 s
  | Call.subscript key => insert key s
  | Call.subscript_assign key _ => insert key s
  | Call.erase key => s.erase key
  | Call.erase_find key => s.erase key

/-- The set of keys that a sequence of calls has inserted and not erased. -/
def keys_inserted_not_erased (calls : List (Call K V)) : Finset K :=
  calls.foldl keys_after_call ∅

/-- A table with three buckets and the identity as hash function, after
`insert((1, 10))`, `insert((4, 40))` and `insert((2, 20))`: the keys 1 and 4 share bucket 1. -/
def demo_table : UnorderedMap Nat Nat :=
  (((UnorderedMap.construct (fun n => n) 3 (fun k => k) 0).insert (1, 10)).1.insert_rv
    (4, 40)).1.insert (2, 20) |>.1

/-- A sequence of calls on a table of `Nat` keys and values. -/
def demo_calls : List (Call Nat Nat) :=
  [Call.insert false (1, 10), Call.insert true (4, 40), Call.subscript_assign 2 20,
    Call.erase 1, Call.subscript 5, Call.erase_find 7]

/-- The byte of a `char` value: its value taken in `0 .. 255`. -/
def byte_of_char (c : Int) : Nat := (c % 256).toNat

/-- The standard 64-bit FNV-1a of a sequence of bytes, in the words of the specification:
starting from the offset basis `0xCBF29CE484222325`, for each byte `b` in order
`h := ((h xor b) * 0x00000100000001B3) mod 2 ^ 64`. -/
def fnv1a_standard (bytes : List Nat) : Nat :=
  bytes.foldl (fun h b => ((h ^^^ b) * 0x00000100000001B3) % 2 ^ 64) 0xCBF29CE484222325

theorem size_t_of_char_cast (c : Int) : ((size_t_of_char c : Nat) : Int) = c % 2 ^ 64 := by
  unfold size_t_of_char
  exact Int.toNat_of_nonneg (Int.emod_nonneg _ (by norm_num))

theorem pow_mod_step (k : Nat) :
    ((19 ^ k % 3298534883309) * 19) % 2 ^ 64 % 3298534883309 = 19 ^ (k + 1) % 3298534883309 := by
  have h : 19 ^ k % 3298534883309 < 3298534883309 := Nat.mod_lt _ (by norm_num)
  have h2 : (19 ^ k % 3298534883309) * 19 < 2 ^ 64 := by omega
  rw [Nat.mod_eq_of_lt h2, pow_succ, Nat.mul_mod, Nat.mod_mod, ← Nat.mul_mod]

theorem polynomial_rolling_hash_loop_spec (s : List Int) (k hash : Nat) (hh : hash < 2 ^ 64) :
    (polynomial_rolling_hash_loop s (hash, 19 ^ k % 3298534883309)).2
        = 19 ^ (k + s.length) % 3298534883309 ∧
    (((polynomial_rolling_hash_loop s (hash, 19 ^ k % 3298534883309)).1 : Nat) : Int)
        = ((hash : Int) + ∑ i in Finset.range s.length,
            s.getD i 0 * ((19 ^ (k + i) % 3298534883309 : Nat) : Int)) % 2 ^ 64 := by
  induction s generalizing k hash with
  | nil =>
      simp [polynomial_rolling_hash_loop]
      omega
  | cons c rest ih =>
      simp only [polynomial_rolling_hash_loop, pow_mod_step]
      obtain ⟨h1, h2⟩ := ih (k + 1)
        ((hash + size_t_of_char c * (19 ^ k % 3298534883309) % 2 ^ 64) % 2 ^ 64)
        (Nat.mod_lt _ (by norm_num))
      refine ⟨by rw [h1]; simp [Nat.add_assoc, Nat.add_comm 1], ?_⟩
      rw [h2, List.length_cons, Finset.sum_range_succ']
      simp only [List.getD_cons_succ, List.getD_cons_zero, Nat.add_zero]
      have e : ∀ i, k + 1 + i = k + (i + 1) := by intro i; omega
      simp only [e]
      push_cast
      rw [size_t_of_char_cast]
      generalize (∑ i ∈ Finset.range rest.length,
        rest.getD i 0 * ((19 : Int) ^ (k + (i + 1)) % 3298534883309)) = S
      generalize ((19 : Int) ^ k % 3298534883309) = P
      have key : (c % 2 ^ 64 * P) % 18446744073709551616 = (c * P) % 18446744073709551616 := by
        have h := (Int.mod_modEq c 18446744073709551616).mul_right P
        norm_num [Int.ModEq] at h ⊢
        exact h
      rw [key]
      generalize c * P = X
      omega


/-- C10: `polynomial_rolling_hash(s)` is the sum of `c_i * (19 ^ i mod 3298534883309)` over
the characters of `s`, reduced modulo `2 ^ 64`; after `i` characters the running power `p`
is `19 ^ i mod 3298534883309` and `p * 19` stays below `2 ^ 64`; the hash of the empty string
is `0`. -/
theorem polynomial_rolling_hash_eq_sum (s : List Int) :
    (∀ i, i ≤ s.length →
        polynomial_rolling_hash_p (s.take i) = 19 ^ i % 3298534883309 ∧
        polynomial_rolling_hash_p (s.take i) * 19 < 2 ^ 64) ∧
    ((polynomial_rolling_hash s : Nat) : Int)
      = (∑ i in Finset.range s.length,
          s.getD i 0 * ((19 ^ i % 3298534883309 : Nat) : Int)) % 2 ^ 64 ∧
    polynomial_rolling_hash ([] : List Int) = 0 := by
  refine ⟨?_, ?_, rfl⟩
  · intro i hi
    have h := (polynomial_rolling_hash_loop_spec (s.take i) 0 0 (by norm_num)).1
    simp only [pow_zero, Nat.zero_add, List.length_take, Nat.min_eq_left hi] at h
    have e : (1 : Nat) % 3298534883309 = 1 := by norm_num
    rw [e] at h
    unfold polynomial_rolling_hash_p
    rw [h]
    have : 19 ^ i % 3298534883309 < 3298534883309 := Nat.mod_lt _ (by norm_num)
    exact ⟨rfl, by omega⟩
  · have h := (polynomial_rolling_hash_loop_spec s 0 0 (by norm_num)).2
    have e : (1 : Nat) % 3298534883309 = 1 := by norm_num
    simp only [pow_zero, Nat.zero_add, e] at h
    unfold polynomial_rolling_hash
    rw [h]
    simp

theorem chain_lookup_none (c : List (HashNode K V)) (p : Nat)
    (h : p ∉ c.map HashNode.id) : chain_lookup c p = none := by
  induction c with
  | nil => rfl
  | cons n rest ih =>
      simp only [List.map_cons, List.mem_cons, not_or] at h
      simp [chain_lookup, Ne.symm h.1, ih h.2]

theorem chain_lookup_mid (a b : List (HashNode K V)) (n : HashNode K V)
    (h : n.id ∉ a.map HashNode.id) :
    chain_lookup (a ++ n :: b) n.id = some (n, b.head?.map HashNode.id) := by
  induction a with
  | nil => simp [chain_lookup]
  | cons x rest ih =>
      simp only [List.map_cons, List.mem_cons, not_or] at h
      simp [chain_lookup, Ne.symm h.1, ih h.2]

theorem chain_lookup_some (c : List (HashNode K V)) (p : Nat) (n : HashNode K V)
    (nx : Option Nat) (h : chain_lookup c p = some (n, nx)) :
    ∃ a b, c = a ++ n :: b ∧ n.id = p ∧ nx = b.head?.map HashNode.id ∧
      p ∉ a.map HashNode.id := by
  induction c with
  | nil => simp [chain_lookup] at h
  | cons x rest ih =>
      by_cases hx : x.id = p
      · simp only [chain_lookup, hx, if_true, Option.some.injEq, Prod.mk.injEq] at h
        exact ⟨[], rest, by simp [h.1], by rw [← h.1]; exact hx, h.2.symm, by simp⟩
      · simp only [chain_lookup, hx, if_false] at h
        obtain ⟨a, b, h1, h2, h3, h4⟩ := ih h
        refine ⟨x :: a, b, by simp [h1], h2, h3, ?_⟩
        simp only [List.map_cons, List.mem_cons, not_or]
        exact ⟨Ne.symm hx, h4⟩

theorem buckets_lookup_none (B : List (List (HashNode K V))) (p : Nat)
    (h : p ∉ B.flatten.map HashNode.id) : buckets_lookup B p = none := by
  induction B with
  | nil => rfl
  | cons c rest ih =>
      simp only [List.flatten_cons, List.map_append, List.mem_append, not_or] at h
      simp [buckets_lookup, chain_lookup_none c p h.1, ih h.2]

theorem buckets_lookup_mid (pre post : List (List (HashNode K V))) (a b : List (HashNode K V))
    (n : HashNode K V) (h1 : n.id ∉ pre.flatten.map HashNode.id)
    (h2 : n.id ∉ a.map HashNode.id) :
    buckets_lookup (pre ++ (a ++ n :: b) :: post) n.id = some (n, b.head?.map HashNode.id) := by
  induction pre with
  | nil => simp [buckets_lookup, chain_lookup_mid a b n h2]
  | cons c rest ih =>
      simp only [List.flatten_cons, List.map_append, List.mem_append, not_or] at h1
      simp [buckets_lookup, chain_lookup_none c n.id h1.1, ih h1.2]

theorem buckets_lookup_some (B : List (List (HashNode K V))) (p : Nat) (n : HashNode K V)
    (nx : Option Nat) (h : buckets_lookup B p = some (n, nx)) :
    ∃ pre a b post, B = pre ++ (a ++ n :: b) :: post ∧ n.id = p ∧
      nx = b.head?.map HashNode.id := by
  induction B with
  | nil => simp [buckets_lookup] at h
  | cons c rest ih =>
      cases hc : chain_lookup c p with
      | some r =>
          simp only [buckets_lookup, hc, Option.some.injEq] at h
          subst h
          obtain ⟨a, b, h1, h2, h3, _⟩ := chain_lookup_some c p n nx hc
          exact ⟨[], a, b, rest, by simp [h1], h2, h3⟩
      | none =>
          simp only [buckets_lookup, hc] at h
          obtain ⟨pre, a, b, post, h1, h2, h3⟩ := ih h
          exact ⟨c :: pre, a, b, post, by simp [h1], h2, h3⟩

theorem flatten_split (B : List (List (HashNode K V))) (xs ys : List (HashNode K V))
    (n : HashNode K V) (h : B.flatten = xs ++ n :: ys) :
    ∃ pre a b post, B = pre ++ (a ++ n :: b) :: post ∧ xs = pre.flatten ++ a ∧
      ys = b ++ post.flatten := by
  induction B generalizing xs with
  | nil => simp at h
  | cons c rest ih =>
      rw [List.flatten_cons, List.append_eq_append_iff] at h
      rcases h with ⟨t, h1, h2⟩ | ⟨t, h1, h2⟩
      · obtain ⟨pre, a, b, post, e1, e2, e3⟩ := ih t h2
        exact ⟨c :: pre, a, b, post, by simp [e1], by simp [h1, e2], e3⟩
      · cases t with
        | nil =>
            simp only [List.append_nil] at h1
            simp only [List.nil_append] at h2
            obtain ⟨pre, a, b, post, e1, e2, e3⟩ := ih [] h2.symm
            have e4 := List.append_eq_nil.mp e2.symm
            refine ⟨c :: pre, a, b, post, by simp [e1], ?_, e3⟩
            rw [List.flatten_cons, e4.1, e4.2, h1]
            simp
        | cons x t =>
            simp only [List.cons_append, List.cons.injEq] at h2
            obtain ⟨hx, h2⟩ := h2
            subst hx
            exact ⟨[], xs, t, rest, by simp [h1], by simp, h2⟩

theorem split_at (B : List (List (HashNode K V))) (i : Nat) (h : i < B.length) :
    ∃ pre post, B = pre ++ B.getD i [] :: post ∧ pre.length = i := by
  refine ⟨B.take i, B.drop (i + 1), ?_, by simp [Nat.le_of_lt h]⟩
  rw [List.getD_eq_getElem _ _ h]
  simp

theorem getD_mid (pre post : List (List (HashNode K V))) (c : List (HashNode K V)) :
    (pre ++ c :: post).getD pre.length [] = c := by
  rw [List.getD_eq_getElem _ _ (by simp)]
  exact List.getElem_append_right (Nat.le_refl _) |>.trans (by simp)

theorem set_mid (pre post : List (List (HashNode K V))) (c c1 : List (HashNode K V)) :
    (pre ++ c :: post).set pre.length c1 = pre ++ c1 :: post := by
  simp [List.set_append]

theorem chain_mid (m : UnorderedMap K V) (pre post : List (List (HashNode K V)))
    (c : List (HashNode K V)) (h : m._buckets = pre ++ c :: post) :
    m.chain pre.length = c := by
  unfold UnorderedMap.chain
  rw [h, getD_mid]

theorem skip_empty_spec (m : UnorderedMap K V) (hlen : m._buckets.length = m._bucket_count) :
    ∀ (post pre : List (List (HashNode K V))) (fuel : Nat),
      m._buckets = pre ++ post → post.length ≤ fuel →
      (if m.skip_empty fuel pre.length < m._bucket_count
        then m.bucket_ptr (m.skip_empty fuel pre.length) else none)
        = post.flatten.head?.map HashNode.id := by
  intro post
  induction post with
  | nil =>
      intro pre fuel hB _
      have hbc : m._bucket_count = pre.length := by rw [← hlen, hB]; simp
      cases fuel <;> simp [UnorderedMap.skip_empty, hbc]
  | cons c rest ih =>
      intro pre fuel hB hf
      have hbc : m._bucket_count = pre.length + (rest.length + 1) := by rw [← hlen, hB]; simp
      cases fuel with
      | zero => simp at hf
      | succ fuel =>
          have hc : m.bucket_ptr pre.length = c.head?.map HashNode.id := by
            unfold UnorderedMap.bucket_ptr
            rw [chain_mid m pre rest c hB]
          have hlt : pre.length < m._bucket_count := by omega
          cases c with
          | nil =>
              have h2 := ih (pre ++ [[]]) fuel (by simp [hB]) (by simpa using hf)
              simp only [List.length_append, List.length_singleton] at h2
              simp only [UnorderedMap.skip_empty, hlt, hc, List.head?_nil, Option.map_none',
                true_and, if_true, List.flatten_cons, List.nil_append]
              exact h2
          | cons x xs =>
              simp [UnorderedMap.skip_empty, hc, hlt]

theorem nodes_split (m : UnorderedMap K V) {pre post : List (List (HashNode K V))}
    {a b : List (HashNode K V)}
    {n : HashNode K V} (h : m._buckets = pre ++ (a ++ n :: b) :: post) :
    m.nodes = (pre.flatten ++ a) ++ n :: (b ++ post.flatten) := by
  unfold UnorderedMap.nodes
  rw [h]
  simp

theorem Inv.id_not_before {m : UnorderedMap K V} (hI : Inv m)
    {pre post : List (List (HashNode K V))} {a b : List (HashNode K V)}
    {n : HashNode K V} (h : m._buckets = pre ++ (a ++ n :: b) :: post) :
    n.id ∉ (pre.flatten ++ a).map HashNode.id := by
  have h1 := hI.ids
  rw [nodes_split m h, List.map_append, List.map_cons] at h1
  intro hmem
  have := (List.nodup_append.mp h1).2.2
  exact this hmem (List.mem_cons_self _ _)

theorem Inv.id_not_after {m : UnorderedMap K V} (hI : Inv m)
    {pre post : List (List (HashNode K V))} {a b : List (HashNode K V)}
    {n : HashNode K V} (h : m._buckets = pre ++ (a ++ n :: b) :: post) :
    n.id ∉ (b ++ post.flatten).map HashNode.id := by
  have h1 := hI.ids
  rw [nodes_split m h, List.map_append, List.map_cons] at h1
  exact (List.nodup_cons.mp (List.nodup_append.mp h1).2.1).1

theorem Inv.key_not_before {m : UnorderedMap K V} (hI : Inv m)
    {pre post : List (List (HashNode K V))} {a b : List (HashNode K V)}
    {n : HashNode K V} (h : m._buckets = pre ++ (a ++ n :: b) :: post) :
    n.val.1 ∉ (pre.flatten ++ a).map (fun x => x.val.1) := by
  have h1 := hI.keys
  rw [nodes_split m h, List.map_append, List.map_cons] at h1
  intro hmem
  have := (List.nodup_append.mp h1).2.2
  exact this hmem (List.mem_cons_self _ _)

theorem Inv.key_not_after {m : UnorderedMap K V} (hI : Inv m)
    {pre post : List (List (HashNode K V))} {a b : List (HashNode K V)}
    {n : HashNode K V} (h : m._buckets = pre ++ (a ++ n :: b) :: post) :
    n.val.1 ∉ (b ++ post.flatten).map (fun x => x.val.1) := by
  have h1 := hI.keys
  rw [nodes_split m h, List.map_append, List.map_cons] at h1
  exact (List.nodup_cons.mp (List.nodup_append.mp h1).2.1).1

theorem Inv.home_split {m : UnorderedMap K V} (hI : Inv m)
    {pre post : List (List (HashNode K V))} {a b : List (HashNode K V)}
    {n : HashNode K V} (h : m._buckets = pre ++ (a ++ n :: b) :: post) :
    m._hash n.val.1 % m._bucket_count = pre.length := by
  apply hI.home
  rw [chain_mid m pre post _ h]
  simp

theorem Inv.deref_split {m : UnorderedMap K V} (hI : Inv m)
    {pre post : List (List (HashNode K V))} {a b : List (HashNode K V)}
    {n : HashNode K V} (h : m._buckets = pre ++ (a ++ n :: b) :: post) :
    m.deref n.id = some (n, b.head?.map HashNode.id) := by
  have h1 := hI.id_not_before h
  rw [List.map_append, List.mem_append, not_or] at h1
  unfold UnorderedMap.deref
  rw [h]
  exact buckets_lookup_mid pre post a b n h1.1 h1.2

theorem Inv.inc_split {m : UnorderedMap K V} (hI : Inv m)
    {pre post : List (List (HashNode K V))} {a b : List (HashNode K V)}
    {n : HashNode K V} (h : m._buckets = pre ++ (a ++ n :: b) :: post) :
    m.operator_inc (some n.id) = (b ++ post.flatten).head?.map HashNode.id := by
  unfold UnorderedMap.operator_inc
  simp only [hI.deref_split h]
  cases b with
  | cons x xs => simp
  | nil =>
      simp only [List.head?_nil, Option.map_none', List.nil_append]
      simp only [_range_hash, hI.home_split h]
      have h2 := skip_empty_spec m hI.len post (pre ++ [a ++ [n]]) m._bucket_count
        (by simp [h]) (by rw [← hI.len, h]; simp; omega)
      simp only [List.length_append, List.length_singleton] at h2
      exact h2

theorem Inv.traverse_from_suffix {m : UnorderedMap K V} (hI : Inv m) :
    ∀ (ys xs : List (HashNode K V)) (fuel : Nat), m.nodes = xs ++ ys → ys.length ≤ fuel →
      m.traverse_from fuel (ys.head?.map HashNode.id) = some ys := by
  intro ys
  induction ys with
  | nil => intro xs fuel _ _; cases fuel <;> rfl
  | cons n ys ih =>
      intro xs fuel hxs hf
      cases fuel with
      | zero => simp at hf
      | succ fuel =>
          obtain ⟨pre, a, b, post, e1, e2, e3⟩ := flatten_split m._buckets xs ys n hxs
          simp only [List.head?_cons, Option.map_some', UnorderedMap.traverse_from,
            hI.deref_split e1, hI.inc_split e1, ← e3]
          rw [ih (xs ++ [n]) fuel (by simp [hxs]) (by simpa using hf)]
          rfl

theorem Inv.traverse_eq {m : UnorderedMap K V} (hI : Inv m) (fuel : Nat)
    (hf : m._size ≤ fuel) : m.traverse fuel = some m.nodes := by
  unfold UnorderedMap.traverse UnorderedMap.begin_
  rw [hI.head]
  exact hI.traverse_from_suffix m.nodes [] fuel rfl (by rw [← hI.size]; exact hf)

theorem get_find_hops (k : K) (c : List (HashNode K V)) :
    c.get? (UnorderedMap.find_hops k c) = c.find? (fun n => decide (n.val.1 = k)) := by
  induction c with
  | nil => rfl
  | cons x rest ih =>
      by_cases hx : x.val.1 = k
      · simp [UnorderedMap.find_hops, hx]
      · simpa [UnorderedMap.find_hops, hx] using ih

theorem insert_scan_eq (k : K) (c : List (HashNode K V)) :
    UnorderedMap.insert_scan k c
      = (c.find? (fun n => decide (n.val.1 = k))).map HashNode.id := by
  induction c with
  | nil => rfl
  | cons x rest ih =>
      by_cases hx : x.val.1 = k
      · simp [UnorderedMap.insert_scan, hx]
      · simp [UnorderedMap.insert_scan, hx, ih]

theorem find_hops_split (k : K) (c : List (HashNode K V)) (n : HashNode K V)
    (h : c.find? (fun n => decide (n.val.1 = k)) = some n) :
    ∃ a b, c = a ++ n :: b ∧ n.val.1 = k ∧ (∀ x ∈ a, x.val.1 ≠ k) ∧
      UnorderedMap.find_hops k c = a.length := by
  induction c with
  | nil => simp at h
  | cons x rest ih =>
      by_cases hx : x.val.1 = k
      · simp only [List.find?_cons, hx, decide_True, Option.some.injEq] at h
        subst h
        exact ⟨[], rest, rfl, hx, by simp, by simp [UnorderedMap.find_hops, hx]⟩
      · simp only [List.find?_cons, hx, decide_False] at h
        obtain ⟨a, b, h1, h2, h3, h4⟩ := ih h
        refine ⟨x :: a, b, by simp [h1], h2, ?_, by simp [UnorderedMap.find_hops, hx, h4]⟩
        intro y hy
        rcases List.mem_cons.mp hy with rfl | hy
        · exact hx
        · exact h3 y hy

theorem find_eq (m : UnorderedMap K V) (k : K) :
    m.find k = ((m.chain (m._hash k % m._bucket_count)).find?
      (fun n => decide (n.val.1 = k))).map HashNode.id := by
  simp only [UnorderedMap.find, UnorderedMap._find, UnorderedMap._find3, UnorderedMap.slot_get,
    _range_hash, get_find_hops]

theorem mem_chain_nodes (m : UnorderedMap K V) (i : Nat) (n : HashNode K V)
    (h : n ∈ m.chain i) : n ∈ m.nodes := by
  unfold UnorderedMap.chain at h
  unfold UnorderedMap.nodes
  by_cases hi : i < m._buckets.length
  · rw [List.getD_eq_getElem _ _ hi] at h
    exact List.mem_flatten.mpr ⟨_, List.getElem_mem hi, h⟩
  · rw [List.getD_eq_default _ _ (Nat.le_of_not_lt hi)] at h
    simp at h

theorem mem_nodes_chain (m : UnorderedMap K V) (n : HashNode K V) (h : n ∈ m.nodes) :
    ∃ i, i < m._buckets.length ∧ n ∈ m.chain i := by
  unfold UnorderedMap.nodes at h
  obtain ⟨c, hc, hn⟩ := List.mem_flatten.mp h
  obtain ⟨i, hi, e⟩ := List.getElem_of_mem hc
  refine ⟨i, hi, ?_⟩
  unfold UnorderedMap.chain
  rw [List.getD_eq_getElem _ _ hi, e]
  exact hn

theorem Inv.mem_home {m : UnorderedMap K V} (hI : Inv m) (n : HashNode K V)
    (h : n ∈ m.nodes) : n ∈ m.chain (m._hash n.val.1 % m._bucket_count) := by
  obtain ⟨i, _, hn⟩ := mem_nodes_chain m n h
  rw [hI.home i n hn]
  exact hn

theorem Inv.key_inj {m : UnorderedMap K V} (hI : Inv m) {x y : HashNode K V}
    (hx : x ∈ m.nodes) (hy : y ∈ m.nodes) (h : x.val.1 = y.val.1) : x = y :=
  List.inj_on_of_nodup_map hI.keys hx hy h

theorem Inv.id_inj {m : UnorderedMap K V} (hI : Inv m) {x y : HashNode K V}
    (hx : x ∈ m.nodes) (hy : y ∈ m.nodes) (h : x.id = y.id) : x = y :=
  List.inj_on_of_nodup_map hI.ids hx hy h

theorem Inv.find_some_iff {m : UnorderedMap K V} (hI : Inv m) (k : K) (p : Nat) :
    m.find k = some p ↔ ∃ n, n ∈ m.nodes ∧ n.val.1 = k ∧ n.id = p := by
  rw [find_eq]
  constructor
  · intro h
    obtain ⟨n, hn, hp⟩ := Option.map_eq_some'.mp h
    have h1 := List.find?_some hn
    have h2 := List.mem_of_find?_eq_some hn
    exact ⟨n, mem_chain_nodes m _ n h2, by simpa using h1, hp⟩
  · rintro ⟨n, hn, hk, hp⟩
    have h1 := hI.mem_home n hn
    rw [hk] at h1
    cases hf : (m.chain (m._hash k % m._bucket_count)).find? (fun n => decide (n.val.1 = k)) with
    | none =>
        have := List.find?_eq_none.mp hf n h1
        simp [hk] at this
    | some x =>
        have h2 : x.val.1 = k := by simpa using List.find?_some hf
        have h3 := mem_chain_nodes m _ x (List.mem_of_find?_eq_some hf)
        have : x = n := hI.key_inj h3 hn (by rw [h2, hk])
        simp [this, hp]

theorem Inv.find_none_iff {m : UnorderedMap K V} (hI : Inv m) (k : K) :
    m.find k = none ↔ ∀ n, n ∈ m.nodes → n.val.1 ≠ k := by
  constructor
  · intro h n hn hk
    have := (hI.find_some_iff k n.id).mpr ⟨n, hn, hk, rfl⟩
    rw [h] at this
    cases this
  · intro h
    cases hf : m.find k with
    | none => rfl
    | some p =>
        obtain ⟨n, hn, hk, _⟩ := (hI.find_some_iff k p).mp hf
        exact absurd hk (h n hn)

theorem Inv.deref_mem {m : UnorderedMap K V} (hI : Inv m) (n : HashNode K V)
    (h : n ∈ m.nodes) : ∃ nx, m.deref n.id = some (n, nx) := by
  obtain ⟨s, t, e⟩ := List.append_of_mem h
  obtain ⟨pre, a, b, post, e1, _, _⟩ := flatten_split m._buckets s t n e
  exact ⟨_, hI.deref_split e1⟩

theorem deref_some_mem (m : UnorderedMap K V) (p : Nat) (n : HashNode K V) (nx : Option Nat)
    (h : m.deref p = some (n, nx)) : n ∈ m.nodes ∧ n.id = p := by
  obtain ⟨pre, a, b, post, e1, e2, _⟩ := buckets_lookup_some m._buckets p n nx h
  refine ⟨?_, e2⟩
  rw [nodes_split m e1]
  simp

theorem Inv.find_split {m : UnorderedMap K V} (hI : Inv m) (k : K) (p : Nat)
    (h : m.find k = some p) :
    ∃ pre a n b post, m._buckets = pre ++ (a ++ n :: b) :: post ∧ n.val.1 = k ∧ n.id = p ∧
      pre.length = m._hash k % m._bucket_count ∧
      UnorderedMap.find_hops k (m.chain (m._hash k % m._bucket_count)) = a.length := by
  rw [find_eq] at h
  obtain ⟨n, hn, hp⟩ := Option.map_eq_some'.mp h
  obtain ⟨a, b, h1, h2, _, h4⟩ := find_hops_split k _ n hn
  have hlt : m._hash k % m._bucket_count < m._buckets.length := by
    rw [hI.len]; exact Nat.mod_lt _ hI.pos
  obtain ⟨pre, post, e1, e2⟩ := split_at m._buckets _ hlt
  refine ⟨pre, a, n, b, post, ?_, h2, hp, e2, h4⟩
  rw [← h1]
  exact e1

theorem Inv.size_pos_of_mem {m : UnorderedMap K V} (hI : Inv m) (n : HashNode K V)
    (h : n ∈ m.nodes) : 0 < m._size := by
  rw [hI.size]
  exact List.length_pos_of_mem h

theorem size_dec_pos (n : Nat) (h : 0 < n) : UnorderedMap.size_dec n = n - 1 := by
  unfold UnorderedMap.size_dec
  rw [if_neg (by omega)]

theorem eraseIdx_mid (a b : List (HashNode K V)) (n : HashNode K V) :
    (a ++ n :: b).eraseIdx a.length = a ++ b := by
  induction a with
  | nil => rfl
  | cons x rest ih => simp [ih]

theorem Inv.erase_found {m : UnorderedMap K V} (hI : Inv m) (k : K) (p : Nat)
    (h : m.find k = some p) :
    ∃ pre a n b post, m._buckets = pre ++ (a ++ n :: b) :: post ∧ n.val.1 = k ∧ n.id = p ∧
      m.erase k =
        ({ m with _buckets := pre ++ (a ++ b) :: post,
                  _head := if m._head = some p then (b ++ post.flatten).head?.map HashNode.id
                           else m._head,
                  _size := m._size - 1 }, 1) := by
  obtain ⟨pre, a, n, b, post, e1, e2, e3, e4, e5⟩ := hI.find_split k p h
  refine ⟨pre, a, n, b, post, e1, e2, e3, ?_⟩
  have hs : 0 < m._size := hI.size_pos_of_mem n (by rw [nodes_split m e1]; simp)
  have hc : m.chain (m._hash k % m._bucket_count) = a ++ n :: b := by
    rw [← e4]; exact chain_mid m pre post _ e1
  have hinc := hI.inc_split e1
  rw [e3] at hinc
  unfold UnorderedMap.find at h
  unfold UnorderedMap.erase
  simp only [h]
  have hslot : m._find k = (pre.length, a.length) := by
    simp only [UnorderedMap._find, UnorderedMap._find3, _range_hash, e5, e4]
  by_cases hh : m._head = some p
  · simp only [hh, if_true, hslot, UnorderedMap.slot_unlink, UnorderedMap.chain, hinc]
    rw [e1, getD_mid, eraseIdx_mid, set_mid, size_dec_pos _ hs]
  · simp only [hh, if_false, hslot, UnorderedMap.slot_unlink, UnorderedMap.chain]
    rw [e1, getD_mid, eraseIdx_mid, set_mid, size_dec_pos _ hs]

theorem erase_absent (m : UnorderedMap K V) (k : K) (h : m.find k = none) :
    m.erase k = (m, 0) := by
  unfold UnorderedMap.find at h
  unfold UnorderedMap.erase
  simp only [h]

theorem Inv.erase_it_live {m : UnorderedMap K V} (hI : Inv m) (q : Nat) (n : HashNode K V)
    (nx : Option Nat) (h : m.deref q = some (n, nx)) :
    m.erase_it (some q) = ((m.erase n.val.1).1, m.operator_inc (some q)) := by
  obtain ⟨hn, hq⟩ := deref_some_mem m q n nx h
  have hf : m.find n.val.1 = some q := (hI.find_some_iff _ _).mpr ⟨n, hn, rfl, hq⟩
  unfold UnorderedMap.find at hf
  unfold UnorderedMap.erase_it UnorderedMap.erase
  simp only [h, hf]

theorem erase_it_end (m : UnorderedMap K V) : m.erase_it none = (m, none) := rfl

theorem getD_replace (pre post : List (List (HashNode K V))) (c c1 : List (HashNode K V))
    (i : Nat) :
    (pre ++ c1 :: post).getD i [] = if i = pre.length then c1 else (pre ++ c :: post).getD i [] := by
  by_cases h : i = pre.length
  · subst h; rw [if_pos rfl, getD_mid]
  · rw [if_neg h]
    simp only [List.getD_eq_getElem?_getD]
    rcases Nat.lt_or_gt_of_ne h with h1 | h1
    · rw [List.getElem?_append_left h1, List.getElem?_append_left h1]
    · rw [List.getElem?_append_right (Nat.le_of_lt h1), List.getElem?_append_right (Nat.le_of_lt h1)]
      obtain ⟨j, hj⟩ : ∃ j, i - pre.length = j + 1 := ⟨i - pre.length - 1, by omega⟩
      rw [hj]
      simp

theorem Inv.remove {m : UnorderedMap K V} (hI : Inv m)
    {pre post : List (List (HashNode K V))} {a b : List (HashNode K V)} {n : HashNode K V}
    (e : m._buckets = pre ++ (a ++ n :: b) :: post) :
    Inv { m with _buckets := pre ++ (a ++ b) :: post,
                 _head := if m._head = some n.id then (b ++ post.flatten).head?.map HashNode.id
                          else m._head,
                 _size := m._size - 1 } := by
  have hnodes := nodes_split m e
  have hsub : List.Sublist ((pre.flatten ++ a) ++ (b ++ post.flatten)) m.nodes := by
    rw [hnodes]
    exact List.Sublist.append (List.Sublist.refl _) (List.sublist_cons_self _ _)
  have hn' : ∀ (h : Option Nat) (s : Nat) ,
      UnorderedMap.nodes { m with _buckets := pre ++ (a ++ b) :: post, _head := h, _size := s }
        = (pre.flatten ++ a) ++ (b ++ post.flatten) := by
    intro h s; simp [UnorderedMap.nodes]
  have hchain : ∀ (h : Option Nat) (s : Nat) (i : Nat),
      List.Sublist
        (UnorderedMap.chain
          { m with _buckets := pre ++ (a ++ b) :: post, _head := h, _size := s } i)
        (m.chain i) := by
    intro h s i
    simp only [UnorderedMap.chain]
    rw [e, getD_replace pre post (a ++ n :: b) (a ++ b) i]
    by_cases hi : i = pre.length
    · rw [if_pos hi, hi, getD_mid]
      exact List.Sublist.append (List.Sublist.refl _) (List.sublist_cons_self _ _)
    · rw [if_neg hi]
  constructor
  · simp only [List.length_append, List.length_cons]
    rw [← hI.len, e]; simp
  · exact hI.pos
  · intro i x hx
    exact hI.home i x ((hchain _ _ i).subset hx)
  · rw [hn']; exact hI.keys.sublist (hsub.map _)
  · rw [hn']; exact hI.ids.sublist (hsub.map _)
  · intro x hx
    rw [hn'] at hx
    exact hI.fresh x (hsub.subset hx)
  · intro i
    exact (hI.desc i).sublist ((hchain _ _ i).map _)
  · rw [hn']
    have hh := hI.head
    rw [hnodes] at hh
    show (if m._head = some n.id then _ else _) = _
    cases hxs : pre.flatten ++ a with
    | nil =>
        rw [hxs] at hh
        simp only [List.nil_append, List.head?_cons, Option.map_some'] at hh
        simp [hh]
    | cons x xs =>
        rw [hxs] at hh
        simp only [List.cons_append, List.head?_cons, Option.map_some'] at hh
        have hne : x.id ≠ n.id := by
          intro hx
          have := hI.id_not_before e
          rw [hxs] at this
          simp [hx] at this
        rw [hh, if_neg (by simpa using hne)]
        simp
  · rw [hn']
    show m._size - 1 = _
    rw [hI.size, hnodes]
    simp
    omega

theorem insert_rv_eq (m : UnorderedMap K V) (value : K × V) :
    m.insert_rv value = m.insert value := by
  unfold UnorderedMap.insert_rv UnorderedMap.insert
  simp only [UnorderedMap._find3, UnorderedMap.slot_get, get_find_hops, insert_scan_eq]
  cases (m.chain (m._bucket value.1)).find? (fun n => decide (n.val.1 = value.1)) <;> rfl

theorem insert_present (m : UnorderedMap K V) (value : K × V) (p : Nat)
    (h : m.find value.1 = some p) : m.insert value = (m, some p, false) := by
  rw [find_eq] at h
  unfold UnorderedMap.insert
  simp only [UnorderedMap._bucket, _range_hash, insert_scan_eq, h]

theorem buckets_lookup_mem (B : List (List (HashNode K V))) (n : HashNode K V)
    (hnd : (B.flatten.map HashNode.id).Nodup) (h : n ∈ B.flatten) :
    ∃ nx, buckets_lookup B n.id = some (n, nx) := by
  obtain ⟨s, t, e⟩ := List.append_of_mem h
  obtain ⟨pre, a, b, post, e1, e2, _⟩ := flatten_split B s t n e
  rw [e, List.map_append, List.map_cons] at hnd
  have h1 : n.id ∉ s.map HashNode.id := fun hm =>
    (List.nodup_append.mp hnd).2.2 hm (List.mem_cons_self _ _)
  rw [e2, List.map_append, List.mem_append, not_or] at h1
  exact ⟨_, by rw [e1]; exact buckets_lookup_mid pre post a b n h1.1 h1.2⟩

theorem mem_pre_flatten (B pre rest : List (List (HashNode K V))) (x : HashNode K V)
    (e : B = pre ++ rest) :
    x ∈ pre.flatten ↔ ∃ j, j < pre.length ∧ x ∈ B.getD j [] := by
  constructor
  · intro h
    obtain ⟨c, hc, hx⟩ := List.mem_flatten.mp h
    obtain ⟨j, hj, ej⟩ := List.getElem_of_mem hc
    refine ⟨j, hj, ?_⟩
    rw [e, List.getD_eq_getElem?_getD, List.getElem?_append_left hj, List.getElem?_eq_getElem hj,
      ej]
    exact hx
  · rintro ⟨j, hj, hx⟩
    rw [e, List.getD_eq_getElem?_getD, List.getElem?_append_left hj,
      List.getElem?_eq_getElem hj] at hx
    exact List.mem_flatten.mpr ⟨_, List.getElem_mem hj, hx⟩

theorem Inv.nodes_nil_of_head {m : UnorderedMap K V} (hI : Inv m) (h : m._head = none) :
    m.nodes = [] := by
  have := hI.head
  rw [h] at this
  cases hn : m.nodes with
  | nil => rfl
  | cons x xs => rw [hn] at this; simp at this

theorem Inv.nodes_cons_of_head {m : UnorderedMap K V} (hI : Inv m) (p : Nat)
    (h : m._head = some p) : ∃ hn ys, m.nodes = hn :: ys ∧ hn.id = p := by
  have := hI.head
  rw [h] at this
  cases hn : m.nodes with
  | nil => rw [hn] at this; simp at this
  | cons x xs =>
      rw [hn] at this
      simp only [List.head?_cons, Option.map_some', Option.some.injEq] at this
      exact ⟨x, xs, rfl, this.symm⟩

theorem nodes_at (m : UnorderedMap K V) (pre post : List (List (HashNode K V)))
    (c : List (HashNode K V)) (e : m._buckets = pre ++ c :: post) :
    m.nodes = pre.flatten ++ (c ++ post.flatten) := by
  unfold UnorderedMap.nodes
  rw [e]
  simp

theorem Inv.insert_ids {m : UnorderedMap K V} (hI : Inv m)
    (pre post : List (List (HashNode K V))) (c : List (HashNode K V)) (value : K × V)
    (e : m._buckets = pre ++ c :: post) :
    ((pre ++ (({ id := m.allocated, val := value } : HashNode K V) :: c) :: post).flatten.map
      HashNode.id).Nodup := by
  have hp : List.Perm
      ((pre ++ (({ id := m.allocated, val := value } : HashNode K V) :: c) :: post).flatten)
      (({ id := m.allocated, val := value } : HashNode K V) :: m.nodes) := by
    rw [nodes_at m pre post c e]
    simp only [List.flatten_append, List.flatten_cons, List.cons_append]
    exact List.perm_middle
  refine (List.Perm.nodup_iff (hp.map _)).mpr ?_
  rw [List.map_cons, List.nodup_cons]
  refine ⟨?_, hI.ids⟩
  intro hm
  obtain ⟨x, hx, hxe⟩ := List.mem_map.mp hm
  have := hI.fresh x hx
  simp only at hxe
  omega

theorem Inv.insert_absent {m : UnorderedMap K V} (hI : Inv m) (value : K × V)
    (h : m.find value.1 = none) :
    ∃ pre post, m._buckets = pre ++ m.chain (m._hash value.1 % m._bucket_count) :: post ∧
      pre.length = m._hash value.1 % m._bucket_count ∧
      m.insert value =
        ({ m with
            _buckets := pre ++ (({ id := m.allocated, val := value } : HashNode K V) ::
              m.chain (m._hash value.1 % m._bucket_count)) :: post,
            allocated := m.allocated + 1,
            _head := (pre.flatten ++ ({ id := m.allocated, val := value } : HashNode K V) ::
              (m.chain (m._hash value.1 % m._bucket_count) ++ post.flatten)).head?.map
                HashNode.id,
            _size := m._size + 1 }, some m.allocated, true) := by
  have hlt : m._hash value.1 % m._bucket_count < m._buckets.length := by
    rw [hI.len]; exact Nat.mod_lt _ hI.pos
  obtain ⟨pre, post, e1, e2⟩ := split_at m._buckets _ hlt
  refine ⟨pre, post, e1, e2, ?_⟩
  have e1' : m._buckets = pre ++ m.chain (m._hash value.1 % m._bucket_count) :: post := e1
  generalize hc : m.chain (m._hash value.1 % m._bucket_count) = c at e1' ⊢
  have hnodes := nodes_at m pre post c e1'
  have hscan : UnorderedMap.insert_scan value.1 c = none := by
    rw [find_eq, hc] at h
    rw [insert_scan_eq]; exact h
  have hB : m._buckets.set (m._hash value.1 % m._bucket_count)
      (({ id := m.allocated, val := value } : HashNode K V) :: c)
      = pre ++ (({ id := m.allocated, val := value } : HashNode K V) :: c) :: post := by
    rw [← e2, e1']; exact set_mid pre post c _
  unfold UnorderedMap.insert
  simp only [UnorderedMap._bucket, _range_hash, hc, hscan, UnorderedMap._insert_into_bucket, hB]
  cases hh : m._head with
  | none =>
      have hn := hI.nodes_nil_of_head hh
      rw [hnodes] at hn
      have hpre : pre.flatten = [] := (List.append_eq_nil.mp hn).1
      simp [hpre]
  | some p =>
      obtain ⟨hn, ys, hys, hp⟩ := hI.nodes_cons_of_head p hh
      have hmem : hn ∈ m.nodes := by rw [hys]; simp
      have hmem' : hn ∈ (pre ++ (({ id := m.allocated, val := value } : HashNode K V) :: c)
          :: post).flatten := by
        rw [hnodes] at hmem
        simp only [List.flatten_append, List.flatten_cons, List.mem_append, List.mem_cons] at hmem ⊢
        tauto
      obtain ⟨nx, hd⟩ := buckets_lookup_mem _ hn (hI.insert_ids pre post c value e1') hmem'
      rw [hp] at hd
      simp only [UnorderedMap.deref, hd, UnorderedMap._bucket, _range_hash]
      have hhome := hI.mem_home hn hmem
      by_cases hle : m._hash value.1 % m._bucket_count ≤ m._hash hn.val.1 % m._bucket_count
      · have hpre : pre.flatten = [] := by
          cases hpf : pre.flatten with
          | nil => rfl
          | cons x xs =>
              exfalso
              rw [hnodes, hpf] at hys
              simp only [List.cons_append, List.cons.injEq] at hys
              have hx : hn ∈ pre.flatten := by rw [hpf, hys.1]; simp
              obtain ⟨j, hj, hxj⟩ := (mem_pre_flatten m._buckets pre _ hn e1').mp hx
              have := hI.home j hn hxj
              omega
        simp [hle, hpre]
      · have hx : hn ∈ pre.flatten :=
          (mem_pre_flatten m._buckets pre _ hn e1').mpr ⟨_, by omega, hhome⟩
        cases hpf : pre.flatten with
        | nil => rw [hpf] at hx; simp at hx
        | cons x xs =>
            rw [hnodes, hpf] at hys
            simp only [List.cons_append, List.cons.injEq] at hys
            simp [hle, hys.1, hp]

theorem Inv.insert_new {m : UnorderedMap K V} (hI : Inv m) (value : K × V)
    (h : m.find value.1 = none) (pre post : List (List (HashNode K V)))
    (e : m._buckets = pre ++ m.chain (m._hash value.1 % m._bucket_count) :: post)
    (e2 : pre.length = m._hash value.1 % m._bucket_count) :
    Inv { m with
            _buckets := pre ++ (({ id := m.allocated, val := value } : HashNode K V) ::
              m.chain (m._hash value.1 % m._bucket_count)) :: post,
            allocated := m.allocated + 1,
            _head := (pre.flatten ++ ({ id := m.allocated, val := value } : HashNode K V) ::
              (m.chain (m._hash value.1 % m._bucket_count) ++ post.flatten)).head?.map
                HashNode.id,
            _size := m._size + 1 } := by
  generalize hc : m.chain (m._hash value.1 % m._bucket_count) = c at e ⊢
  have hnodes := nodes_at m pre post c e
  have hp : List.Perm
      ((pre ++ (({ id := m.allocated, val := value } : HashNode K V) :: c) :: post).flatten)
      (({ id := m.allocated, val := value } : HashNode K V) :: m.nodes) := by
    rw [hnodes]
    simp only [List.flatten_append, List.flatten_cons, List.cons_append]
    exact List.perm_middle
  have hchain : ∀ (hd : Option Nat) (s al : Nat) (i : Nat),
      UnorderedMap.chain
        { m with _buckets := pre ++ (({ id := m.allocated, val := value } : HashNode K V) :: c)
            :: post, allocated := al, _head := hd, _size := s } i
      = if i = pre.length then ({ id := m.allocated, val := value } : HashNode K V) :: c
        else m.chain i := by
    intro hd s al i
    simp only [UnorderedMap.chain]
    rw [e, getD_replace pre post c _ i]
  constructor
  · show (pre ++ _ :: post).length = m._bucket_count
    rw [← hI.len, e]; simp
  · exact hI.pos
  · intro i x hx
    rw [hchain] at hx
    by_cases hi : i = pre.length
    · rw [if_pos hi] at hx
      rcases List.mem_cons.mp hx with rfl | hx
      · show m._hash value.1 % m._bucket_count = i
        rw [hi, e2]
      · rw [← hc, ← e2, ← hi] at hx
        exact hI.home i x hx
    · rw [if_neg hi] at hx
      exact hI.home i x hx
  · show ((pre ++ _ :: post).flatten.map _).Nodup
    refine (List.Perm.nodup_iff (hp.map _)).mpr ?_
    rw [List.map_cons, List.nodup_cons]
    refine ⟨?_, hI.keys⟩
    intro hm
    obtain ⟨x, hx, hxe⟩ := List.mem_map.mp hm
    exact (hI.find_none_iff value.1).mp h x hx hxe
  · exact hI.insert_ids pre post c value e
  · intro x hx
    have hx' : x ∈ (pre ++ (({ id := m.allocated, val := value } : HashNode K V) :: c)
        :: post).flatten := hx
    rcases List.mem_cons.mp (hp.subset hx') with rfl | hx2
    · show m.allocated < m.allocated + 1
      omega
    · have := hI.fresh x hx2
      show x.id < m.allocated + 1
      omega
  · intro i
    rw [hchain]
    by_cases hi : i = pre.length
    · rw [if_pos hi, List.map_cons, List.pairwise_cons]
      refine ⟨?_, ?_⟩
      · intro y hy
        obtain ⟨x, hx, rfl⟩ := List.mem_map.mp hy
        rw [← hc] at hx
        exact hI.fresh x (mem_chain_nodes m _ x hx)
      · rw [← hc]; exact hI.desc _
    · rw [if_neg hi]; exact hI.desc i
  · show _ = (List.head? (List.flatten (pre ++ _ :: post))).map HashNode.id
    simp
  · show m._size + 1 = (List.flatten (pre ++ _ :: post)).length
    rw [hp.length_eq, hI.size]
    simp

theorem Inv.insert {m : UnorderedMap K V} (hI : Inv m) (value : K × V) :
    Inv (m.insert value).1 := by
  cases hf : m.find value.1 with
  | some p => rw [insert_present m value p hf]; exact hI
  | none =>
      obtain ⟨pre, post, e1, e2, e3⟩ := hI.insert_absent value hf
      rw [e3]
      exact hI.insert_new value hf pre post e1 e2

theorem Inv.erase {m : UnorderedMap K V} (hI : Inv m) (k : K) : Inv (m.erase k).1 := by
  cases hf : m.find k with
  | none => rw [erase_absent m k hf]; exact hI
  | some p =>
      obtain ⟨pre, a, n, b, post, e1, _, e3, e4⟩ := hI.erase_found k p hf
      rw [e4, ← e3]
      exact hI.remove e1

theorem Inv.erase_it {m : UnorderedMap K V} (hI : Inv m) (pos : Option Nat) :
    Inv (m.erase_it pos).1 := by
  cases pos with
  | none => exact hI
  | some q =>
      cases hd : m.deref q with
      | none => simp only [UnorderedMap.erase_it, hd]; exact hI
      | some r =>
          obtain ⟨n, nx⟩ := r
          rw [hI.erase_it_live q n nx hd]
          exact hI.erase n.val.1

theorem flatten_replicate_nil (n : Nat) :
    (List.replicate n ([] : List (HashNode K V))).flatten = [] := by
  induction n with
  | zero => rfl
  | succ n ih => simp [List.replicate_succ, ih]

theorem Inv.of_empty (m : UnorderedMap K V) (hb : m._buckets = List.replicate m._bucket_count [])
    (hp : 0 < m._bucket_count) (hh : m._head = none) (hs : m._size = 0) : Inv m := by
  have hn : m.nodes = [] := by
    unfold UnorderedMap.nodes; rw [hb]; exact flatten_replicate_nil _
  have hc : ∀ i, m.chain i = [] := by
    intro i
    cases hci : m.chain i with
    | nil => rfl
    | cons x xs =>
        have := mem_chain_nodes m i x (by rw [hci]; simp)
        rw [hn] at this; simp at this
  constructor
  · rw [hb]; simp
  · exact hp
  · intro i x hx; rw [hc i] at hx; simp at hx
  · rw [hn]; simp
  · rw [hn]; simp
  · intro x hx; rw [hn] at hx; simp at hx
  · intro i; rw [hc i]; simp
  · rw [hn, hh]; rfl
  · rw [hn, hs]; rfl

theorem Inv.construct (next_greater_prime : Nat → Nat) (bucket_count : Nat) (hash : K → Nat)
    (allocated : Nat) (h : 0 < next_greater_prime bucket_count) :
    Inv (UnorderedMap.construct next_greater_prime bucket_count hash allocated :
      UnorderedMap K V) :=
  Inv.of_empty _ rfl h rfl rfl

theorem Inv.buckets_of_size_zero {m : UnorderedMap K V} (hI : Inv m) (hs : m._size = 0) :
    m._buckets = List.replicate m._bucket_count [] ∧ m._head = none := by
  have hn : m.nodes = [] := by
    have := hI.size; rw [hs] at this
    exact List.length_eq_zero.mp this.symm
  refine ⟨?_, by rw [hI.head, hn]; rfl⟩
  rw [← hI.len]
  refine List.eq_replicate_iff.mpr ⟨rfl, ?_⟩
  intro c hc
  cases hcc : c with
  | nil => rfl
  | cons x xs =>
      have : x ∈ m.nodes := List.mem_flatten.mpr ⟨c, hc, by rw [hcc]; simp⟩
      rw [hn] at this; simp at this

theorem erase_fields (m : UnorderedMap K V) (k : K) :
    (m.erase k).1._bucket_count = m._bucket_count ∧ (m.erase k).1._hash = m._hash ∧
      (m.erase k).1.allocated = m.allocated := by
  cases h : m.slot_get (m._find k) with
  | none => simp [UnorderedMap.erase, h]
  | some p =>
      simp only [UnorderedMap.erase, h, UnorderedMap.slot_unlink]
      by_cases hh : m._head = some p <;> simp [hh]

theorem Inv.erase_it_head {m : UnorderedMap K V} (hI : Inv m) (hs : m._size ≠ 0) :
    (m.erase_it m.begin_).1._size = m._size - 1 ∧
    (m.erase_it m.begin_).1._bucket_count = m._bucket_count ∧
    (m.erase_it m.begin_).1._hash = m._hash ∧
    (m.erase_it m.begin_).1.allocated = m.allocated := by
  cases hh : m._head with
  | none =>
      have := hI.nodes_nil_of_head hh
      have h2 := hI.size
      rw [this] at h2
      exact absurd h2 hs
  | some p =>
      obtain ⟨hn, ys, hys, hp⟩ := hI.nodes_cons_of_head p hh
      have hmem : hn ∈ m.nodes := by rw [hys]; simp
      obtain ⟨nx, hd⟩ := hI.deref_mem hn hmem
      rw [hp] at hd
      unfold UnorderedMap.begin_
      rw [hh, hI.erase_it_live p hn nx hd]
      have hf : m.find hn.val.1 = some p := (hI.find_some_iff _ _).mpr ⟨hn, hmem, rfl, hp⟩
      obtain ⟨pre, a, n, b, post, e1, _, e3, e4⟩ := hI.erase_found _ p hf
      refine ⟨?_, erase_fields m _⟩
      rw [e4]

theorem Inv.clear_loop {m : UnorderedMap K V} (hI : Inv m) (fuel : Nat) (hf : m._size ≤ fuel) :
    m.clear_loop fuel
      = some ({ m with _buckets := List.replicate m._bucket_count [], _head := none, _size := 0 },
          m._size) := by
  induction fuel generalizing m with
  | zero =>
      have hs : m._size = 0 := by omega
      obtain ⟨h1, h2⟩ := hI.buckets_of_size_zero hs
      simp only [UnorderedMap.clear_loop, hs, if_true, ← h1, ← h2]
      cases m; simp_all
  | succ fuel ih =>
      by_cases hs : m._size = 0
      · obtain ⟨h1, h2⟩ := hI.buckets_of_size_zero hs
        simp only [UnorderedMap.clear_loop, hs, if_true, ← h1, ← h2]
        cases m; simp_all
      · obtain ⟨e1, e2, e3, e4⟩ := hI.erase_it_head hs
        simp only [UnorderedMap.clear_loop, hs, if_false]
        rw [ih (hI.erase_it _) (by omega)]
        simp only [Option.map_some', e1, e2, e3, e4]
        congr 2
        omega

theorem write_value_nodes (m : UnorderedMap K V) (q : Nat) (v : V) :
    (m.write_value (some q) v).nodes
      = m.nodes.map (fun n => if n.id = q then { n with val := (n.val.1, v) } else n) := by
  simp only [UnorderedMap.write_value, UnorderedMap.nodes, List.map_flatten]

theorem write_value_chain (m : UnorderedMap K V) (q : Nat) (v : V) (i : Nat) :
    (m.write_value (some q) v).chain i
      = (m.chain i).map (fun n => if n.id = q then { n with val := (n.val.1, v) } else n) := by
  simp only [UnorderedMap.write_value, UnorderedMap.chain, List.getD_eq_getElem?_getD,
    List.getElem?_map]
  cases m._buckets[i]? <;> rfl

theorem write_value_id (q : Nat) (v : V) :
    (HashNode.id ∘ fun (n : HashNode K V) => if n.id = q then { n with val := (n.val.1, v) } else n)
      = HashNode.id := by
  funext n
  simp only [Function.comp]
  split <;> rfl

theorem write_value_key (q : Nat) (v : V) :
    ((fun (n : HashNode K V) => n.val.1) ∘
      fun (n : HashNode K V) => if n.id = q then { n with val := (n.val.1, v) } else n)
      = fun n => n.val.1 := by
  funext n
  simp only [Function.comp]
  split <;> rfl

theorem Inv.write_value {m : UnorderedMap K V} (hI : Inv m) (p : Option Nat) (v : V) :
    Inv (m.write_value p v) := by
  cases p with
  | none => exact hI
  | some q =>
      constructor
      · show (m._buckets.map _).length = _
        rw [List.length_map]; exact hI.len
      · exact hI.pos
      · intro i x hx
        rw [write_value_chain] at hx
        obtain ⟨y, hy, rfl⟩ := List.mem_map.mp hx
        have := hI.home i y hy
        show m._hash _ % m._bucket_count = i
        split <;> exact this
      · rw [write_value_nodes, List.map_map, write_value_key]; exact hI.keys
      · rw [write_value_nodes, List.map_map, write_value_id]; exact hI.ids
      · intro x hx
        rw [write_value_nodes] at hx
        obtain ⟨y, hy, rfl⟩ := List.mem_map.mp hx
        have := hI.fresh y hy
        show _ < m.allocated
        split <;> exact this
      · intro i
        rw [write_value_chain, List.map_map, write_value_id]; exact hI.desc i
      · rw [write_value_nodes, List.head?_map, Option.map_map, write_value_id]; exact hI.head
      · rw [write_value_nodes, List.length_map]; exact hI.size

theorem Inv.copy_chain {m : UnorderedMap K V} (hI : Inv m) (c : List (HashNode K V)) :
    Inv (UnorderedMap.copy_chain m c) := by
  induction c generalizing m with
  | nil => exact hI
  | cons x rest ih => exact ih (hI.insert x.val)

theorem Inv.copy_buckets {m : UnorderedMap K V} (hI : Inv m) (other : UnorderedMap K V) :
    Inv (UnorderedMap.copy_buckets m other) := by
  unfold UnorderedMap.copy_buckets
  generalize List.range m._bucket_count = l
  induction l generalizing m with
  | nil => exact hI
  | cons i rest ih => exact ih (hI.copy_chain _)

theorem Inv.copy_construct {other : UnorderedMap K V} (hI : Inv other) :
    Inv (UnorderedMap.copy_construct other) := by
  unfold UnorderedMap.copy_construct
  apply Inv.copy_buckets
  exact Inv.of_empty _ rfl hI.pos rfl rfl

theorem Inv.clear_loop_fuel {m : UnorderedMap K V} (hI : Inv m) (fuel : Nat)
    (r : UnorderedMap K V × Nat) (h : m.clear_loop fuel = some r) : m._size ≤ fuel := by
  induction fuel generalizing m r with
  | zero =>
      by_cases hs : m._size = 0
      · omega
      · simp [UnorderedMap.clear_loop, hs] at h
  | succ fuel ih =>
      by_cases hs : m._size = 0
      · omega
      · simp only [UnorderedMap.clear_loop, hs, if_false] at h
        obtain ⟨r1, hr1, _⟩ := Option.map_eq_some'.mp h
        have := ih (hI.erase_it _) r1 hr1
        rw [(hI.erase_it_head hs).1] at this
        omega

theorem Inv.clear {m m1 : UnorderedMap K V} (hI : Inv m) (fuel : Nat)
    (h : m.clear fuel = some m1) :
    m1 = { m with _buckets := List.replicate m._bucket_count [], _head := none, _size := 0 } := by
  unfold UnorderedMap.clear at h
  obtain ⟨r, hr, rfl⟩ := Option.map_eq_some'.mp h
  rw [hI.clear_loop fuel (hI.clear_loop_fuel fuel r hr)] at hr
  cases hr
  rfl

theorem Inv.copy_assign {m other m1 : UnorderedMap K V} (hI : Inv m) (hO : Inv other)
    (fuel : Nat) (h : m.copy_assign fuel other = some m1) : Inv m1 := by
  unfold UnorderedMap.copy_assign at h
  obtain ⟨r, hr, rfl⟩ := Option.map_eq_some'.mp h
  rw [hI.clear_loop fuel (hI.clear_loop_fuel fuel r hr)] at hr
  cases hr
  unfold UnorderedMap.copy_assign_cleared
  apply Inv.copy_buckets
  exact Inv.of_empty _ rfl hO.pos rfl rfl

theorem Inv.moved_from {src : UnorderedMap K V} (hI : Inv src) (dst : UnorderedMap K V) :
    Inv (UnorderedMap._move_content src dst).1 :=
  Inv.of_empty _ rfl hI.pos rfl rfl

theorem Inv.moved_to {src : UnorderedMap K V} (hI : Inv src) (dst : UnorderedMap K V) :
    Inv (UnorderedMap._move_content src dst).2 := by
  have : (UnorderedMap._move_content src dst).2 = src := by cases src; rfl
  rw [this]; exact hI

theorem Reachable.inv [Inhabited V] {m : UnorderedMap K V} (h : Reachable m) : Inv m := by
  induction h with
  | construct ngp bc hash al h => exact Inv.construct ngp bc hash al h
  | insert m value _ ih => exact ih.insert value
  | insert_rv m value _ ih => rw [insert_rv_eq]; exact ih.insert value
  | subscript m key _ ih => exact ih.insert (key, default)
  | write_value m p v _ ih => exact ih.write_value p v
  | erase m key _ ih => exact ih.erase key
  | erase_it m pos _ _ ih => exact ih.erase_it pos
  | clear m m1 fuel _ h ih =>
      rw [ih.clear fuel h]
      exact Inv.of_empty _ rfl ih.pos rfl rfl
  | copy_construct other _ ih => exact ih.copy_construct
  | copy_assign m other m1 fuel _ _ h ih1 ih2 => exact ih1.copy_assign ih2 fuel h
  | moved_from src dst _ ih => exact ih.moved_from dst
  | moved_to src dst _ ih => exact ih.moved_to dst
  | move_assign_from m other r fuel _ _ h ih1 ih2 =>
      unfold UnorderedMap.move_assign at h
      obtain ⟨r1, _, rfl⟩ := Option.map_eq_some'.mp h
      exact ih2.moved_from _
  | move_assign_to m other r fuel _ _ h ih1 ih2 =>
      unfold UnorderedMap.move_assign at h
      obtain ⟨r1, _, rfl⟩ := Option.map_eq_some'.mp h
      exact ih2.moved_to _

theorem Inv.find_nodes {m : UnorderedMap K V} (hI : Inv m) (k : K) :
    m.find k = (m.nodes.find? (fun n => decide (n.val.1 = k))).map HashNode.id := by
  cases hf : m.nodes.find? (fun n => decide (n.val.1 = k)) with
  | none =>
      rw [Option.map_none', hI.find_none_iff]
      intro n hn hk
      have := List.find?_eq_none.mp hf n hn
      simp [hk] at this
  | some n =>
      rw [Option.map_some', hI.find_some_iff]
      exact ⟨n, List.mem_of_find?_eq_some hf, by simpa using List.find?_some hf, rfl⟩

theorem Inv.entry_find {m : UnorderedMap K V} (hI : Inv m) (k : K) :
    m.entry_at (m.find k)
      = (m.nodes.find? (fun n => decide (n.val.1 = k))).map HashNode.val := by
  rw [hI.find_nodes]
  cases hf : m.nodes.find? (fun n => decide (n.val.1 = k)) with
  | none => rfl
  | some n =>
      obtain ⟨nx, hd⟩ := hI.deref_mem n (List.mem_of_find?_eq_some hf)
      simp [UnorderedMap.entry_at, hd]

theorem read_value_eq (m : UnorderedMap K V) (p : Option Nat) :
    m.read_value p = (m.entry_at p).map Prod.snd := by
  cases p with
  | none => rfl
  | some q =>
      simp only [UnorderedMap.read_value, UnorderedMap.entry_at, Option.map_map]
      rfl

theorem Inv.entry_find_key {m : UnorderedMap K V} (hI : Inv m) (k : K) (e : K × V)
    (h : m.entry_at (m.find k) = some e) : e.1 = k := by
  rw [hI.entry_find] at h
  obtain ⟨n, hn, rfl⟩ := Option.map_eq_some'.mp h
  simpa using List.find?_some hn

theorem Inv.find_isSome_iff {m : UnorderedMap K V} (hI : Inv m) (k : K) :
    m.find k ≠ none ↔ (m.entry_at (m.find k)).isSome = true := by
  rw [hI.entry_find, hI.find_nodes]
  cases m.nodes.find? (fun n => decide (n.val.1 = k)) <;> simp

theorem Inv.insert_absent_nodes {m : UnorderedMap K V} (hI : Inv m) (value : K × V)
    (h : m.find value.1 = none) :
    ∃ s t, m.nodes = s ++ t ∧
      (m.insert value).1.nodes = s ++ ({ id := m.allocated, val := value } : HashNode K V) :: t ∧
      (m.insert value).1._size = m._size + 1 ∧
      (m.insert value).2 = (some m.allocated, true) ∧
      (∀ i, (m.insert value).1.chain i =
        if i = m._hash value.1 % m._bucket_count
          then ({ id := m.allocated, val := value } : HashNode K V) :: m.chain i
          else m.chain i) ∧
      (m.insert value).1._bucket_count = m._bucket_count ∧
      (m.insert value).1._hash = m._hash ∧
      (m.insert value).1.allocated = m.allocated + 1 := by
  obtain ⟨pre, post, e1, e2, e3⟩ := hI.insert_absent value h
  refine ⟨pre.flatten, m.chain (m._hash value.1 % m._bucket_count) ++ post.flatten,
    nodes_at m pre post _ e1, ?_, ?_, ?_, ?_, ?_, ?_, ?_⟩ <;> rw [e3]
  · simp [UnorderedMap.nodes]
  · intro i
    simp only [UnorderedMap.chain]
    rw [getD_replace pre post (m._buckets.getD (m._hash value.1 % m._bucket_count) []) _ i, e2]
    by_cases hi : i = m._hash value.1 % m._bucket_count
    · rw [if_pos hi, if_pos hi, hi]
    · rw [if_neg hi, if_neg hi]
      exact congrArg (fun B => List.getD B i []) e1.symm

theorem Inv.erase_found_nodes {m : UnorderedMap K V} (hI : Inv m) (k : K) (p : Nat)
    (h : m.find k = some p) :
    ∃ s n t, m.nodes = s ++ n :: t ∧ n.val.1 = k ∧ n.id = p ∧
      (m.erase k).1.nodes = s ++ t ∧ (m.erase k).1._size = m._size - 1 ∧ 0 < m._size ∧
      (m.erase k).2 = 1 ∧ m.operator_inc (some p) = t.head?.map HashNode.id := by
  obtain ⟨pre, a, n, b, post, e1, e2, e3, e4⟩ := hI.erase_found k p h
  have hinc := hI.inc_split e1
  rw [e3] at hinc
  refine ⟨pre.flatten ++ a, n, b ++ post.flatten, nodes_split m e1, e2, e3, ?_, ?_, ?_, ?_, hinc⟩
  · rw [e4]; simp [UnorderedMap.nodes]
  · rw [e4]
  · exact hI.size_pos_of_mem n (by rw [nodes_split m e1]; simp)
  · rw [e4]

theorem find?_insert_mid (s t : List (HashNode K V)) (x : HashNode K V) (k : K)
    (hs : ∀ n, n ∈ s → n.val.1 ≠ x.val.1) :
    (s ++ x :: t).find? (fun n => decide (n.val.1 = k))
      = if k = x.val.1 then some x else (s ++ t).find? (fun n => decide (n.val.1 = k)) := by
  rw [List.find?_append, List.find?_append, List.find?_cons]
  by_cases hk : k = x.val.1
  · subst hk
    have : s.find? (fun n => decide (n.val.1 = x.val.1)) = none := by
      rw [List.find?_eq_none]
      intro n hn
      simpa using hs n hn
    simp [this]
  · have hk' : ¬ x.val.1 = k := fun h => hk h.symm
    simp [hk, hk']

theorem find?_erase_mid (s t : List (HashNode K V)) (x : HashNode K V) (k : K)
    (hs : ∀ n, n ∈ s ++ t → n.val.1 ≠ x.val.1) :
    (s ++ t).find? (fun n => decide (n.val.1 = k))
      = if k = x.val.1 then none else (s ++ x :: t).find? (fun n => decide (n.val.1 = k)) := by
  by_cases hk : k = x.val.1
  · subst hk
    rw [if_pos rfl, List.find?_eq_none]
    intro n hn
    simpa using hs n hn
  · have hk' : ¬ x.val.1 = k := fun h => hk h.symm
    rw [if_neg hk, List.find?_append, List.find?_append, List.find?_cons]
    simp [hk']

theorem Inv.insert_absent_find {m : UnorderedMap K V} (hI : Inv m) (value : K × V)
    (h : m.find value.1 = none) (k : K) :
    (m.insert value).1.find k = (if k = value.1 then some m.allocated else m.find k) ∧
    (m.insert value).1.entry_at ((m.insert value).1.find k)
      = (if k = value.1 then some value else m.entry_at (m.find k)) := by
  obtain ⟨s, t, e1, e2, _⟩ := hI.insert_absent_nodes value h
  have hI' := hI.insert value
  have hs : ∀ n, n ∈ s → n.val.1 ≠ value.1 := by
    intro n hn
    exact (hI.find_none_iff value.1).mp h n (by rw [e1]; simp [hn])
  have key := find?_insert_mid s t ({ id := m.allocated, val := value } : HashNode K V) k hs
  rw [hI'.entry_find, hI'.find_nodes, hI.entry_find, hI.find_nodes, e2, key, e1]
  by_cases hk : k = value.1 <;> simp [hk]

theorem Inv.erase_found_find {m : UnorderedMap K V} (hI : Inv m) (key : K) (p : Nat)
    (h : m.find key = some p) (k : K) :
    (m.erase key).1.find k = (if k = key then none else m.find k) ∧
    (m.erase key).1.entry_at ((m.erase key).1.find k)
      = (if k = key then none else m.entry_at (m.find k)) := by
  obtain ⟨s, n, t, e1, e2, e3, e4, _⟩ := hI.erase_found_nodes key p h
  have hI' := hI.erase key
  have hs : ∀ x, x ∈ s ++ t → x.val.1 ≠ n.val.1 := by
    intro x hx hxe
    have hk := hI.keys
    rw [e1, List.map_append, List.map_cons] at hk
    have h1 := List.nodup_append.mp hk
    rcases List.mem_append.mp hx with hx | hx
    · exact h1.2.2 (List.mem_map_of_mem _ hx) (by rw [hxe]; simp)
    · exact (List.nodup_cons.mp h1.2.1).1 (by rw [← hxe]; exact List.mem_map_of_mem _ hx)
  have hkey := find?_erase_mid s t n k hs
  rw [hI'.entry_find, hI'.find_nodes, hI.entry_find, hI.find_nodes, e4, hkey, e1, e2]
  by_cases hk : k = key <;> simp [hk]

theorem insert_call_eq (m : UnorderedMap K V) (call : Bool × (K × V)) :
    insert_call m call = (m.insert call.2).1 := by
  unfold insert_call
  cases call.1
  · rfl
  · simp [insert_rv_eq]

theorem insert_calls_spec (m0 : UnorderedMap K V) (h0 : Inv m0) (hn : m0.nodes = [])
    (calls : List (Bool × (K × V))) :
    Inv (insert_calls m0 calls) ∧
    (insert_calls m0 calls)._size = ((calls.map (fun c => c.2.1)).toFinset).card ∧
    ∀ k, (insert_calls m0 calls).entry_at ((insert_calls m0 calls).find k)
      = (calls.map Prod.snd).find? (fun e => decide (e.1 = k)) := by
  induction calls using List.reverseRecOn with
  | nil =>
      refine ⟨h0, ?_, ?_⟩
      · show m0._size = _
        rw [h0.size, hn]; rfl
      · intro k
        show m0.entry_at (m0.find k) = none
        rw [h0.entry_find, hn]; rfl
  | append_singleton l a ih =>
      obtain ⟨hI, hs, hf⟩ := ih
      have e : insert_calls m0 (l ++ [a]) = ((insert_calls m0 l).insert a.2).1 := by
        unfold insert_calls
        rw [List.foldl_append]
        exact insert_call_eq _ a
      rw [e]
      generalize insert_calls m0 l = m at hI hs hf ⊢
      have hmem : a.2.1 ∈ (l.map (fun c => c.2.1)).toFinset ↔ m.find a.2.1 ≠ none := by
        rw [hI.find_isSome_iff, hf, List.mem_toFinset]
        constructor
        · intro hm
          obtain ⟨c, hc, hce⟩ := List.mem_map.mp hm
          cases hfind : (l.map Prod.snd).find? (fun e => decide (e.1 = a.2.1)) with
          | some x => rfl
          | none =>
              have := List.find?_eq_none.mp hfind c.2 (List.mem_map_of_mem _ hc)
              simp [hce] at this
        · intro hsome
          obtain ⟨x, hx⟩ := Option.isSome_iff_exists.mp hsome
          have h1 := List.mem_of_find?_eq_some hx
          have h2 : x.1 = a.2.1 := by simpa using List.find?_some hx
          obtain ⟨c, hc, rfl⟩ := List.mem_map.mp h1
          exact List.mem_map.mpr ⟨c, hc, h2⟩
      refine ⟨hI.insert a.2, ?_, ?_⟩
      · rw [List.map_append, List.toFinset_append]
        simp only [List.map_cons, List.map_nil, List.toFinset_cons, List.toFinset_nil,
          insert_emptyc_eq]
        cases hfa : m.find a.2.1 with
        | some p =>
            rw [insert_present m a.2 p hfa]
            have : a.2.1 ∈ (l.map (fun c => c.2.1)).toFinset := hmem.mpr (by rw [hfa]; simp)
            rw [Finset.union_eq_left.mpr (Finset.singleton_subset_iff.mpr this)]
            exact hs
        | none =>
            obtain ⟨_, _, _, _, h3, _⟩ := hI.insert_absent_nodes a.2 hfa
            have : a.2.1 ∉ (l.map (fun c => c.2.1)).toFinset := fun hm => hmem.mp hm hfa
            rw [h3, hs, Finset.union_comm, ← Finset.insert_eq, Finset.card_insert_of_not_mem this]
      · intro k
        rw [List.map_append, List.find?_append]
        simp only [List.map_cons, List.map_nil, List.find?_cons, List.find?_nil]
        cases hfa : m.find a.2.1 with
        | some p =>
            rw [insert_present m a.2 p hfa, hf]
            by_cases hk : a.2.1 = k
            · subst hk
              have : (m.entry_at (m.find a.2.1)).isSome = true :=
                hI.find_isSome_iff _ |>.mp (by rw [hfa]; simp)
              rw [hf] at this
              obtain ⟨x, hx⟩ := Option.isSome_iff_exists.mp this
              rw [hx]; rfl
            · simp [hk]
        | none =>
            rw [(hI.insert_absent_find a.2 hfa k).2]
            by_cases hk : k = a.2.1
            · subst hk
              have h1 := hf a.2.1
              rw [hfa] at h1
              rw [← h1]
              simp [UnorderedMap.entry_at]
            · have hk' : ¬ a.2.1 = k := fun h => hk h.symm
              rw [if_neg hk, hf]
              simp [hk']

/-- C1: on a freshly constructed table with at least one bucket, whatever the hash function,
after any sequence of `insert` calls (of either overload) `size()` is the number of distinct
keys of the sequence, and for every key `k` of the sequence `find(k)` is not `end()` and
designates the entry `(k, v)`, `v` being the value of the first call that inserts `k`. -/
theorem insert_calls_size_find (next_greater_prime : Nat → Nat) (bucket_count : Nat)
    (hash : K → Nat) (allocated : Nat) (calls : List (Bool × (K × V)))
    (hb : 1 ≤ next_greater_prime bucket_count) :
    (insert_calls (UnorderedMap.construct next_greater_prime bucket_count hash allocated)
        calls).size = ((calls.map (fun c => c.2.1)).toFinset).card ∧
    ∀ k, k ∈ calls.map (fun c => c.2.1) →
      (insert_calls (UnorderedMap.construct next_greater_prime bucket_count hash allocated)
        calls).find k ≠
      (insert_calls (UnorderedMap.construct next_greater_prime bucket_count hash allocated)
        calls).end_ ∧
      ∃ v, (calls.map Prod.snd).find? (fun e => decide (e.1 = k)) = some (k, v) ∧
        (insert_calls (UnorderedMap.construct next_greater_prime bucket_count hash allocated)
          calls).entry_at
          ((insert_calls (UnorderedMap.construct next_greater_prime bucket_count hash allocated)
            calls).find k) = some (k, v) := by
  have h0 : Inv (UnorderedMap.construct next_greater_prime bucket_count hash allocated :
      UnorderedMap K V) := Inv.construct _ _ _ _ hb
  have hn : (UnorderedMap.construct next_greater_prime bucket_count hash allocated :
      UnorderedMap K V).nodes = [] := flatten_replicate_nil _
  obtain ⟨hI, hs, hf⟩ := insert_calls_spec _ h0 hn calls
  refine ⟨hs, ?_⟩
  intro k hk
  obtain ⟨c, hc, hce⟩ := List.mem_map.mp hk
  cases hfind : (calls.map Prod.snd).find? (fun e => decide (e.1 = k)) with
  | none =>
      have := List.find?_eq_none.mp hfind c.2 (List.mem_map_of_mem _ hc)
      simp [hce] at this
  | some x =>
      have hx : x.1 = k := by simpa using List.find?_some hfind
      have hx2 : x = (k, x.2) := by rw [← hx]
      refine ⟨?_, x.2, by rw [← hx2], by rw [hf k, hfind, ← hx2]⟩
      apply (hI.find_isSome_iff k).mpr
      rw [hf k, hfind]; rfl

theorem insert_calls_size_find_witness :
    1 ≤ (fun n : Nat => n) 3 ∧
    ((insert_calls (UnorderedMap.construct (fun n : Nat => n) 3 (fun k : Nat => k) 0 :
          UnorderedMap Nat Nat)
        [(false, (1, 10)), (true, (4, 40)), (false, (1, 11))]).size
      = (([(false, (1, 10)), (true, (4, 40)), (false, (1, 11))] : List (Bool × (Nat × Nat))).map
          (fun c => c.2.1)).toFinset.card ∧
    ∀ k, k ∈ ([(false, (1, 10)), (true, (4, 40)), (false, (1, 11))] :
          List (Bool × (Nat × Nat))).map (fun c => c.2.1) →
      (insert_calls (UnorderedMap.construct (fun n : Nat => n) 3 (fun k : Nat => k) 0 :
          UnorderedMap Nat Nat)
        [(false, (1, 10)), (true, (4, 40)), (false, (1, 11))]).find k ≠
      (insert_calls (UnorderedMap.construct (fun n : Nat => n) 3 (fun k : Nat => k) 0 :
          UnorderedMap Nat Nat)
        [(false, (1, 10)), (true, (4, 40)), (false, (1, 11))]).end_ ∧
      ∃ v, (([(false, (1, 10)), (true, (4, 40)), (false, (1, 11))] :
            List (Bool × (Nat × Nat))).map Prod.snd).find? (fun e => decide (e.1 = k))
          = some (k, v) ∧
        (insert_calls (UnorderedMap.construct (fun n : Nat => n) 3 (fun k : Nat => k) 0 :
            UnorderedMap Nat Nat)
          [(false, (1, 10)), (true, (4, 40)), (false, (1, 11))]).entry_at
          ((insert_calls (UnorderedMap.construct (fun n : Nat => n) 3 (fun k : Nat => k) 0 :
              UnorderedMap Nat Nat)
            [(false, (1, 10)), (true, (4, 40)), (false, (1, 11))]).find k) = some (k, v)) :=
  ⟨by decide,
    insert_calls_size_find (fun n => n) 3 (fun k => k) 0
      [(false, (1, 10)), (true, (4, 40)), (false, (1, 11))] (by decide)⟩

theorem demo_reachable : Reachable demo_table :=
  Reachable.insert _ _ (Reachable.insert_rv _ _ (Reachable.insert _ _
    (Reachable.construct (fun n => n) 3 (fun k => k) 0 (by decide))))

/-- C2: in a reachable table that stores the key of `value`, `insert(value)` (either
overload) returns `inserted = false` with an iterator to the existing node, which holds that
key, and leaves the table as it was: the stored entry of the key, `size()`, the chain of
every bucket and the first node are the same as before the call. -/
theorem insert_existing_unchanged [Inhabited V] (m : UnorderedMap K V) (value : K × V)
    (hr : Reachable m) (hk : m.find value.1 ≠ m.end_) :
    m.insert value = (m, m.find value.1, false) ∧
    m.insert_rv value = (m, m.find value.1, false) ∧
    (∃ v, m.entry_at (m.insert value).2.1 = some (value.1, v)) ∧
    (m.insert value).1.entry_at ((m.insert value).1.find value.1)
      = m.entry_at (m.find value.1) ∧
    (m.insert value).1.size = m.size ∧
    (∀ n, (m.insert value).1.chain n = m.chain n) ∧
    (m.insert value).1._head = m._head := by
  have hI := hr.inv
  cases hf : m.find value.1 with
  | none => exact absurd hf hk
  | some p =>
      have e := insert_present m value p hf
      refine ⟨e, by rw [insert_rv_eq, e], ?_,
        by rw [e]; show m.entry_at (m.find value.1) = _; rw [hf],
        by rw [e], by intro n; rw [e], by rw [e]⟩
      rw [e]
      have h1 := (hI.find_isSome_iff value.1).mp hk
      rw [hf] at h1
      obtain ⟨x, hx⟩ := Option.isSome_iff_exists.mp h1
      have h2 := hI.entry_find_key value.1 x (by rw [hf]; exact hx)
      exact ⟨x.2, by rw [hx, ← h2]⟩

theorem insert_existing_unchanged_witness :
    Reachable demo_table ∧ demo_table.find (4, 41).1 ≠ demo_table.end_ ∧
    (demo_table.insert (4, 41) = (demo_table, demo_table.find (4, 41).1, false) ∧
    demo_table.insert_rv (4, 41) = (demo_table, demo_table.find (4, 41).1, false) ∧
    (∃ v, demo_table.entry_at (demo_table.insert (4, 41)).2.1 = some ((4, 41).1, v)) ∧
    (demo_table.insert (4, 41)).1.entry_at ((demo_table.insert (4, 41)).1.find (4, 41).1)
      = demo_table.entry_at (demo_table.find (4, 41).1) ∧
    (demo_table.insert (4, 41)).1.size = demo_table.size ∧
    (∀ n, (demo_table.insert (4, 41)).1.chain n = demo_table.chain n) ∧
    (demo_table.insert (4, 41)).1._head = demo_table._head) :=
  ⟨demo_reachable, by decide,
    insert_existing_unchanged demo_table (4, 41) demo_reachable (by decide)⟩

/-- C3: in a reachable table, after `erase(k)` the call `find(k)` returns `end()`; and when
`k` is not stored, `erase(k)` returns 0 and leaves the table, so `size()` and the chain of
every bucket, as it was. -/
theorem erase_then_find_end [Inhabited V] (m : UnorderedMap K V) (k : K) (hr : Reachable m) :
    (m.erase k).1.find k = (m.erase k).1.end_ ∧
    (m.find k = m.end_ →
      (m.erase k).2 = 0 ∧ (m.erase k).1.size = m.size ∧
      (∀ n, (m.erase k).1.chain n = m.chain n) ∧ (m.erase k).1 = m) := by
  have hI := hr.inv
  constructor
  · cases hf : m.find k with
    | none => rw [erase_absent m k hf]; exact hf
    | some p =>
        have := (hI.erase_found_find k p hf k).1
        rw [if_pos rfl] at this
        exact this
  · intro hf
    have e := erase_absent m k hf
    exact ⟨by rw [e], by rw [e], by intro n; rw [e], by rw [e]⟩

theorem erase_then_find_end_witness :
    Reachable demo_table ∧
    ((demo_table.erase 4).1.find 4 = (demo_table.erase 4).1.end_ ∧
    (demo_table.find 4 = demo_table.end_ →
      (demo_table.erase 4).2 = 0 ∧ (demo_table.erase 4).1.size = demo_table.size ∧
      (∀ n, (demo_table.erase 4).1.chain n = demo_table.chain n) ∧
      (demo_table.erase 4).1 = demo_table)) :=
  ⟨demo_reachable, erase_then_find_end demo_table 4 demo_reachable⟩

/-- C5: in a reachable table that stores `k`, `erase(k)` returns 1, makes `size()` smaller
by exactly 1, and for every other key `j` the call `find(j)` gives what it gave before:
the same node, so the same presence and the same value. -/
theorem erase_stored_frame [Inhabited V] (m : UnorderedMap K V) (k : K) (hr : Reachable m)
    (hk : m.find k ≠ m.end_) :
    (m.erase k).2 = 1 ∧ (m.erase k).1.size + 1 = m.size ∧
    ∀ j, j ≠ k →
      (m.erase k).1.find j = m.find j ∧
      ((m.erase k).1.find j = (m.erase k).1.end_ ↔ m.find j = m.end_) ∧
      (m.erase k).1.entry_at ((m.erase k).1.find j) = m.entry_at (m.find j) := by
  have hI := hr.inv
  cases hf : m.find k with
  | none => exact absurd hf hk
  | some p =>
      obtain ⟨_, _, _, _, _, _, _, hs, hpos, hret, _⟩ := hI.erase_found_nodes k p hf
      refine ⟨hret, ?_, ?_⟩
      · show (m.erase k).1._size + 1 = m._size
        rw [hs]; omega
      · intro j hj
        obtain ⟨h1, h2⟩ := hI.erase_found_find k p hf j
        rw [if_neg hj] at h1 h2
        exact ⟨h1, by rw [h1]; rfl, h2⟩

theorem erase_stored_frame_witness :
    Reachable demo_table ∧ demo_table.find 4 ≠ demo_table.end_ ∧
    ((demo_table.erase 4).2 = 1 ∧ (demo_table.erase 4).1.size + 1 = demo_table.size ∧
    ∀ j, j ≠ 4 →
      (demo_table.erase 4).1.find j = demo_table.find j ∧
      ((demo_table.erase 4).1.find j = (demo_table.erase 4).1.end_ ↔
        demo_table.find j = demo_table.end_) ∧
      (demo_table.erase 4).1.entry_at ((demo_table.erase 4).1.find j)
        = demo_table.entry_at (demo_table.find j)) :=
  ⟨demo_reachable, by decide, erase_stored_frame demo_table 4 demo_reachable (by decide)⟩

theorem Inv.write_value_find {m : UnorderedMap K V} (hI : Inv m) (q : Nat) (v : V) (k : K) :
    (m.write_value (some q) v).find k = m.find k ∧
    (m.write_value (some q) v).entry_at ((m.write_value (some q) v).find k)
      = (m.entry_at (m.find k)).map (fun e => if m.find k = some q then (e.1, v) else e) := by
  have hI' := hI.write_value (some q) v
  have hp : ((fun (n : HashNode K V) => decide (n.val.1 = k)) ∘
      fun (n : HashNode K V) => if n.id = q then { n with val := (n.val.1, v) } else n)
      = fun n => decide (n.val.1 = k) := by
    funext n
    simp only [Function.comp]
    split <;> rfl
  rw [hI'.entry_find, hI'.find_nodes, hI.entry_find, hI.find_nodes, write_value_nodes,
    List.find?_map, hp]
  cases m.nodes.find? (fun n => decide (n.val.1 = k)) with
  | none => simp
  | some n =>
      simp only [Option.map_some', Option.some.injEq]
      by_cases hq : n.id = q
      · simp [hq]
      · simp [hq]

theorem subscript_present [Inhabited V] (m : UnorderedMap K V) (k : K) (q : Nat)
    (h : m.find k = some q) : m.subscript k = (m, some q) := by
  unfold UnorderedMap.subscript
  rw [insert_present m (k, default) q h]

theorem Inv.subscript_ptr {m : UnorderedMap K V} [Inhabited V] (hI : Inv m) (k : K) :
    (m.subscript k).2 = (m.subscript k).1.find k ∧ (m.subscript k).1.find k ≠ none := by
  unfold UnorderedMap.subscript
  cases hf : m.find k with
  | some p =>
      rw [insert_present m (k, default) p hf]
      exact ⟨hf.symm, by simp [hf]⟩
  | none =>
      obtain ⟨_, _, _, _, _, h4, _⟩ := hI.insert_absent_nodes (k, default) hf
      have h5 := (hI.insert_absent_find (k, default) hf k).1
      rw [if_pos rfl] at h5
      simp [h5, h4]

/-- C6: in a reachable table, after the assignment `table[k] = v`, `find(k)` designates
`(k, v)` and reading `table[k]` yields `v` without changing the table. When `k` is absent
before the first `table[k]`, that call inserts `(k, T())`, which makes `size()` larger by 1;
when `k` is present it leaves the table, so `size()`, as it is and returns the stored value. -/
theorem subscript_assign_read [Inhabited V] (m : UnorderedMap K V) (k : K) (v : V)
    (hr : Reachable m) :
    ((m.subscript k).1.write_value (m.subscript k).2 v).entry_at
        (((m.subscript k).1.write_value (m.subscript k).2 v).find k) = some (k, v) ∧
    (((m.subscript k).1.write_value (m.subscript k).2 v).subscript k).1
      = (m.subscript k).1.write_value (m.subscript k).2 v ∧
    ((m.subscript k).1.write_value (m.subscript k).2 v).read_value
        (((m.subscript k).1.write_value (m.subscript k).2 v).subscript k).2 = some v ∧
    (m.find k = m.end_ →
      (m.subscript k).1.size = m.size + 1 ∧
      (m.subscript k).1.entry_at ((m.subscript k).1.find k) = some (k, default) ∧
      (m.subscript k).1.read_value (m.subscript k).2 = some default) ∧
    (m.find k ≠ m.end_ →
      (m.subscript k).1 = m ∧ (m.subscript k).1.size = m.size ∧
      (m.subscript k).1.read_value (m.subscript k).2 = m.read_value (m.find k) ∧
      (m.read_value (m.find k)).isSome = true) := by
  have hI := hr.inv
  have hI1 : Inv (m.subscript k).1 := hI.insert (k, default)
  obtain ⟨hp, hne⟩ := hI.subscript_ptr k
  obtain ⟨q, hq⟩ := Option.ne_none_iff_exists'.mp hne
  have hpq : (m.subscript k).2 = some q := by rw [hp, hq]
  have hI2 : Inv ((m.subscript k).1.write_value (m.subscript k).2 v) := hI1.write_value _ v
  have hent : ((m.subscript k).1.write_value (m.subscript k).2 v).entry_at
      (((m.subscript k).1.write_value (m.subscript k).2 v).find k) = some (k, v) := by
    rw [hpq, (hI1.write_value_find q v k).2, hq]
    have h1 := (hI1.find_isSome_iff k).mp hne
    rw [hq] at h1
    obtain ⟨x, hx⟩ := Option.isSome_iff_exists.mp h1
    have h2 := hI1.entry_find_key k x (by rw [hq]; exact hx)
    rw [hx]
    simp [h2]
  have hfind2 : ((m.subscript k).1.write_value (m.subscript k).2 v).find k = some q := by
    rw [hpq, (hI1.write_value_find q v k).1, hq]
  have hsub2 : ((m.subscript k).1.write_value (m.subscript k).2 v).subscript k
      = ((m.subscript k).1.write_value (m.subscript k).2 v, some q) :=
    subscript_present _ k q hfind2
  refine ⟨hent, by rw [hsub2], ?_, ?_, ?_⟩
  · rw [hsub2, read_value_eq]
    rw [hfind2] at hent
    rw [hent]; rfl
  · intro hf
    obtain ⟨_, _, _, _, h3, h4, _⟩ := hI.insert_absent_nodes (k, default) hf
    have h5 := (hI.insert_absent_find (k, default) hf k).2
    rw [if_pos rfl] at h5
    refine ⟨h3, h5, ?_⟩
    rw [read_value_eq, hp]
    show Option.map Prod.snd ((m.insert (k, default)).1.entry_at
      ((m.insert (k, default)).1.find k)) = _
    rw [h5]
    rfl
  · intro hf
    obtain ⟨p, hfp⟩ := Option.ne_none_iff_exists'.mp hf
    have e : m.subscript k = (m, some p) := subscript_present m k p hfp
    refine ⟨by rw [e], by rw [e], by rw [e, hfp], ?_⟩
    rw [read_value_eq]
    have := (hI.find_isSome_iff k).mp hf
    cases h : m.entry_at (m.find k) with
    | none => rw [h] at this; cases this
    | some x => rfl

theorem subscript_assign_read_witness :
    Reachable demo_table ∧
    (((demo_table.subscript 7).1.write_value (demo_table.subscript 7).2 5).entry_at
        (((demo_table.subscript 7).1.write_value (demo_table.subscript 7).2 5).find 7) = some (7, 5) ∧
    (((demo_table.subscript 7).1.write_value (demo_table.subscript 7).2 5).subscript 7).1
      = (demo_table.subscript 7).1.write_value (demo_table.subscript 7).2 5 ∧
    ((demo_table.subscript 7).1.write_value (demo_table.subscript 7).2 5).read_value
        (((demo_table.subscript 7).1.write_value (demo_table.subscript 7).2 5).subscript 7).2 = some 5 ∧
    (demo_table.find 7 = demo_table.end_ →
      (demo_table.subscript 7).1.size = demo_table.size + 1 ∧
      (demo_table.subscript 7).1.entry_at ((demo_table.subscript 7).1.find 7) = some (7, default) ∧
      (demo_table.subscript 7).1.read_value (demo_table.subscript 7).2 = some default) ∧
    (demo_table.find 7 ≠ demo_table.end_ →
      (demo_table.subscript 7).1 = demo_table ∧ (demo_table.subscript 7).1.size = demo_table.size ∧
      (demo_table.subscript 7).1.read_value (demo_table.subscript 7).2 = demo_table.read_value (demo_table.find 7) ∧
      (demo_table.read_value (demo_table.find 7)).isSome = true)) :=
  ⟨demo_reachable, subscript_assign_read demo_table 7 5 demo_reachable⟩

theorem Inv.insert_find_ne_none {m : UnorderedMap K V} (hI : Inv m) (value : K × V) (k : K) :
    (m.insert value).1.find k ≠ none ↔ (k = value.1 ∨ m.find k ≠ none) := by
  cases hf : m.find value.1 with
  | some p =>
      rw [insert_present m value p hf]
      constructor
      · intro h; exact Or.inr h
      · rintro (rfl | h)
        · show m.find value.1 ≠ none
          rw [hf]; simp
        · exact h
  | none =>
      rw [(hI.insert_absent_find value hf k).1]
      by_cases hk : k = value.1
      · simp [hk]
      · simp [hk]

theorem Inv.erase_find_ne_none {m : UnorderedMap K V} (hI : Inv m) (key : K) (k : K) :
    (m.erase key).1.find k ≠ none ↔ (k ≠ key ∧ m.find k ≠ none) := by
  cases hf : m.find key with
  | none =>
      rw [erase_absent m key hf]
      constructor
      · intro h
        refine ⟨?_, h⟩
        rintro rfl
        exact h hf
      · exact fun h => h.2
  | some p =>
      rw [(hI.erase_found_find key p hf k).1]
      by_cases hk : k = key
      · simp [hk]
      · simp [hk]

theorem Inv.erase_it_find {m : UnorderedMap K V} (hI : Inv m) (key : K) :
    (m.erase_it (m.find key)).1 = (m.erase key).1 := by
  cases hf : m.find key with
  | none => rw [erase_absent m key hf]; rfl
  | some p =>
      obtain ⟨n, hn, hk, hp⟩ := (hI.find_some_iff key p).mp hf
      obtain ⟨nx, hd⟩ := hI.deref_mem n hn
      rw [hp] at hd
      rw [hI.erase_it_live p n nx hd, hk]

theorem write_value_find_all {m : UnorderedMap K V} (hI : Inv m) (p : Option Nat) (v : V)
    (k : K) : (m.write_value p v).find k = m.find k := by
  cases p with
  | none => rfl
  | some q => exact (hI.write_value_find q v k).1

theorem apply_call_reachable [Inhabited V] (m : UnorderedMap K V) (c : Call K V)
    (hr : Reachable m) : Reachable (apply_call m c) := by
  cases c with
  | insert rvalue value =>
      cases rvalue
      · exact Reachable.insert m value hr
      · exact Reachable.insert_rv m value hr
  | subscript key => exact Reachable.subscript m key hr
  | subscript_assign key v =>
      exact Reachable.write_value _ _ v (Reachable.subscript m key hr)
  | erase key => exact Reachable.erase m key hr
  | erase_find key =>
      show Reachable (m.erase_it (m.find key)).1
      rw [hr.inv.erase_it_find]
      exact Reachable.erase m key hr

theorem apply_calls_reachable [Inhabited V] (m : UnorderedMap K V) (calls : List (Call K V))
    (hr : Reachable m) : Reachable (apply_calls m calls) := by
  induction calls generalizing m with
  | nil => exact hr
  | cons c rest ih => exact ih _ (apply_call_reachable m c hr)

theorem apply_call_find [Inhabited V] (m : UnorderedMap K V) (c : Call K V) (hI : Inv m)
    (s : Finset K) (hs : ∀ k, m.find k ≠ none ↔ k ∈ s) (k : K) :
    (apply_call m c).find k ≠ none ↔ k ∈ keys_after_call s c := by
  cases c with
  | insert rvalue value =>
      show (insert_call m (rvalue, value)).find k ≠ none ↔ k ∈ insert value.1 s
      rw [insert_call_eq, hI.insert_find_ne_none, Finset.mem_insert, hs]
  | subscript key =>
      show (m.insert (key, default)).1.find k ≠ none ↔ k ∈ insert key s
      rw [hI.insert_find_ne_none, Finset.mem_insert, hs]
  | subscript_assign key v =>
      show ((m.insert (key, default)).1.write_value _ v).find k ≠ none ↔ k ∈ insert key s
      rw [write_value_find_all (hI.insert _), hI.insert_find_ne_none, Finset.mem_insert, hs]
  | erase key =>
      show (m.erase key).1.find k ≠ none ↔ k ∈ s.erase key
      rw [hI.erase_find_ne_none, Finset.mem_erase, hs]
  | erase_find key =>
      show (m.erase_it (m.find key)).1.find k ≠ none ↔ k ∈ s.erase key
      rw [hI.erase_it_find, hI.erase_find_ne_none, Finset.mem_erase, hs]

theorem apply_calls_find [Inhabited V] (m0 : UnorderedMap K V) (hr : Reachable m0)
    (hn : m0.nodes = []) (calls : List (Call K V)) (k : K) :
    (apply_calls m0 calls).find k ≠ none ↔ k ∈ keys_inserted_not_erased calls := by
  induction calls using List.reverseRecOn generalizing k with
  | nil =>
      show m0.find k ≠ none ↔ k ∈ (∅ : Finset K)
      have : m0.find k = none := by
        rw [hr.inv.find_none_iff, hn]; simp
      simp [this]
  | append_singleton l c ih =>
      have e1 : apply_calls m0 (l ++ [c]) = apply_call (apply_calls m0 l) c := by
        unfold apply_calls; rw [List.foldl_append]; rfl
      have e2 : keys_inserted_not_erased (l ++ [c])
          = keys_after_call (keys_inserted_not_erased l) c := by
        unfold keys_inserted_not_erased; rw [List.foldl_append]; rfl
      rw [e1, e2]
      exact apply_call_find _ c (apply_calls_reachable m0 l hr).inv _ ih k

theorem Inv.mem_keys_iff {m : UnorderedMap K V} (hI : Inv m) (k : K) :
    k ∈ m.nodes.map (fun n => n.val.1) ↔ m.find k ≠ none := by
  rw [Ne, hI.find_none_iff]
  constructor
  · rintro hm h
    obtain ⟨n, hn, hk⟩ := List.mem_map.mp hm
    exact h n hn hk
  · intro h
    by_contra hc
    apply h
    intro n hn hk
    exact hc (List.mem_map.mpr ⟨n, hn, hk⟩)

/-- C4: for a table built from a freshly constructed one by any sequence of `insert`,
`operator[]` and `erase` calls, the traversal from `begin()` by `operator++` reaches `end()`
after exactly `size()` entries, visits no node and no key twice, and the keys it visits are
exactly the keys inserted and not erased. -/
theorem traversal_visits_live_keys [Inhabited V] (next_greater_prime : Nat → Nat)
    (bucket_count : Nat) (hash : K → Nat) (allocated : Nat) (calls : List (Call K V))
    (hb : 1 ≤ next_greater_prime bucket_count) :
    ∃ l,
      (∀ fuel, (apply_calls (UnorderedMap.construct next_greater_prime bucket_count hash
          allocated) calls).size ≤ fuel →
        (apply_calls (UnorderedMap.construct next_greater_prime bucket_count hash allocated)
          calls).traverse fuel = some l) ∧
      l.length = (apply_calls (UnorderedMap.construct next_greater_prime bucket_count hash
          allocated) calls).size ∧
      (l.map HashNode.id).Nodup ∧ (l.map (fun n => n.val.1)).Nodup ∧
      ∀ k, k ∈ l.map (fun n => n.val.1) ↔ k ∈ keys_inserted_not_erased calls := by
  have h0 : Reachable (UnorderedMap.construct next_greater_prime bucket_count hash allocated :
      UnorderedMap K V) := Reachable.construct _ _ _ _ hb
  have hn : (UnorderedMap.construct next_greater_prime bucket_count hash allocated :
      UnorderedMap K V).nodes = [] := flatten_replicate_nil _
  have hI := (apply_calls_reachable _ calls h0).inv
  refine ⟨_, fun fuel hf => hI.traverse_eq fuel hf, hI.size.symm, hI.ids, hI.keys, ?_⟩
  intro k
  rw [hI.mem_keys_iff, apply_calls_find _ h0 hn]

theorem traversal_visits_live_keys_witness :
    1 ≤ (fun n : Nat => n) 3 ∧
    (∃ l,
      (∀ fuel, (apply_calls (UnorderedMap.construct (fun n : Nat => n) 3 (fun k : Nat => k) 0 :
          UnorderedMap Nat Nat) demo_calls).size ≤ fuel →
        (apply_calls (UnorderedMap.construct (fun n : Nat => n) 3 (fun k : Nat => k) 0 :
          UnorderedMap Nat Nat) demo_calls).traverse fuel = some l) ∧
      l.length = (apply_calls (UnorderedMap.construct (fun n : Nat => n) 3 (fun k : Nat => k) 0 :
          UnorderedMap Nat Nat) demo_calls).size ∧
      (l.map HashNode.id).Nodup ∧ (l.map (fun n => n.val.1)).Nodup ∧
      ∀ k, k ∈ l.map (fun n => n.val.1) ↔ k ∈ keys_inserted_not_erased demo_calls) :=
  ⟨by decide,
    traversal_visits_live_keys (fun n => n) 3 (fun k => k) 0 demo_calls (by decide)⟩

theorem Inv.nodes_order {m : UnorderedMap K V} (hI : Inv m) :
    m.nodes.Pairwise (fun x y =>
      m.bucket x.val.1 ≤ m.bucket y.val.1 ∧
      (m.bucket x.val.1 = m.bucket y.val.1 → y.id < x.id)) := by
  unfold UnorderedMap.nodes
  rw [List.pairwise_flatten]
  constructor
  · intro c hc
    obtain ⟨i, hi, e⟩ := List.getElem_of_mem hc
    have hci : m.chain i = c := by
      unfold UnorderedMap.chain
      rw [List.getD_eq_getElem _ _ hi, e]
    have hd := hI.desc i
    rw [hci, List.pairwise_map] at hd
    refine List.Pairwise.imp_of_mem ?_ hd
    intro x y hx hy hxy
    have h1 := hI.home i x (by rw [hci]; exact hx)
    have h2 := hI.home i y (by rw [hci]; exact hy)
    unfold UnorderedMap.bucket
    rw [h1, h2]
    exact ⟨Nat.le_refl _, fun _ => hxy⟩
  · rw [List.pairwise_iff_getElem]
    intro i j hi hj hij x hx y hy
    have h1 := hI.home i x (by
      unfold UnorderedMap.chain; rw [List.getD_eq_getElem _ _ hi]; exact hx)
    have h2 := hI.home j y (by
      unfold UnorderedMap.chain; rw [List.getD_eq_getElem _ _ hj]; exact hy)
    unfold UnorderedMap.bucket
    rw [h1, h2]
    exact ⟨Nat.le_of_lt hij, fun h => absurd h (Nat.ne_of_lt hij)⟩

/-- C7: in a reachable table the full traversal from `begin()` to `end()` is in ascending
bucket order (the bucket indices `hash(key) mod bucket_count` of the visited entries do not
decrease), and of two entries of one bucket the one inserted later comes first: node
identities are the serial numbers of the insertions, a new node getting one above those of all
nodes of the table. -/
theorem traversal_order [Inhabited V] (m : UnorderedMap K V) (hr : Reachable m) :
    ∃ l,
      (∀ fuel, m.size ≤ fuel → m.traverse fuel = some l) ∧
      l.Pairwise (fun x y =>
        m._hash x.val.1 % m.bucket_count ≤ m._hash y.val.1 % m.bucket_count ∧
        (m._hash x.val.1 % m.bucket_count = m._hash y.val.1 % m.bucket_count → y.id < x.id)) ∧
      (∀ n, n ∈ l → n.id < m.allocated) ∧
      ∀ value : K × V, m.find value.1 = m.end_ →
        (m.insert value).2 = (some m.allocated, true) ∧
        (m.insert value).1.chain (m.bucket value.1)
          = { id := m.allocated, val := value } :: m.chain (m.bucket value.1) := by
  have hI := hr.inv
  refine ⟨m.nodes, fun fuel hf => hI.traverse_eq fuel hf, hI.nodes_order, hI.fresh, ?_⟩
  intro value hf
  obtain ⟨_, _, _, _, _, h4, h5, _⟩ := hI.insert_absent_nodes value hf
  refine ⟨h4, ?_⟩
  rw [h5]
  unfold UnorderedMap.bucket
  rw [if_pos rfl]

theorem traversal_order_witness :
    Reachable demo_table ∧
    ∃ l,
      (∀ fuel, demo_table.size ≤ fuel → demo_table.traverse fuel = some l) ∧
      l.Pairwise (fun x y =>
        demo_table._hash x.val.1 % demo_table.bucket_count
          ≤ demo_table._hash y.val.1 % demo_table.bucket_count ∧
        (demo_table._hash x.val.1 % demo_table.bucket_count
            = demo_table._hash y.val.1 % demo_table.bucket_count → y.id < x.id)) ∧
      (∀ n, n ∈ l → n.id < demo_table.allocated) ∧
      ∀ value : Nat × Nat, demo_table.find value.1 = demo_table.end_ →
        (demo_table.insert value).2 = (some demo_table.allocated, true) ∧
        (demo_table.insert value).1.chain (demo_table.bucket value.1)
          = { id := demo_table.allocated, val := value } ::
              demo_table.chain (demo_table.bucket value.1) :=
  ⟨demo_reachable, traversal_order demo_table demo_reachable⟩

/-- C8: in a reachable table, for an iterator `pos` that designates a stored entry,
`erase(pos)` removes exactly that entry (`size()` is smaller by 1, `find` of its key is
`end()`, the traversal is the former one without that entry) and returns the iterator to the
entry the traversal visited right after `pos` before the call, `end()` when `pos` was the
last one; `erase(end())` returns `end()` and changes nothing. -/
theorem erase_it_returns_next [Inhabited V] (m : UnorderedMap K V) (pos : Option Nat)
    (hr : Reachable m) (hp : m.live pos) :
    (∃ n xs ys,
      m.entry_at pos = some n.val ∧ pos = some n.id ∧
      (∀ fuel, m.size ≤ fuel → m.traverse fuel = some (xs ++ n :: ys)) ∧
      (∀ fuel, (m.erase_it pos).1.size ≤ fuel →
        (m.erase_it pos).1.traverse fuel = some (xs ++ ys)) ∧
      (m.erase_it pos).2 = ys.head?.map HashNode.id ∧
      (ys = [] → (m.erase_it pos).2 = (m.erase_it pos).1.end_) ∧
      (m.erase_it pos).1.entry_at (m.erase_it pos).2 = ys.head?.map HashNode.val ∧
      (m.erase_it pos).1.size + 1 = m.size ∧
      (m.erase_it pos).1.find n.val.1 = (m.erase_it pos).1.end_) ∧
    m.erase_it m.end_ = (m, m.end_) := by
  have hI := hr.inv
  refine ⟨?_, rfl⟩
  obtain ⟨q, rfl, hq⟩ := hp
  obtain ⟨⟨n, nx⟩, hd⟩ := Option.isSome_iff_exists.mp hq
  obtain ⟨hn, hid⟩ := deref_some_mem m q n nx hd
  have hf : m.find n.val.1 = some q := (hI.find_some_iff _ _).mpr ⟨n, hn, rfl, hid⟩
  obtain ⟨s, n1, t, e1, e2, e3, e4, e5, e6, _, e8⟩ := hI.erase_found_nodes n.val.1 q hf
  have hn1 : n1 = n := by
    apply hI.id_inj (by rw [e1]; simp) hn
    rw [e3, hid]
  subst hn1
  have hI' := hI.erase n1.val.1
  have he := hI.erase_it_live q n1 nx hd
  have hret : (m.erase_it (some q)).2 = t.head?.map HashNode.id := by rw [he]; exact e8
  have hst : (m.erase_it (some q)).1 = (m.erase n1.val.1).1 := by rw [he]
  refine ⟨n1, s, t, ?_, by rw [hid], ?_, ?_, hret, ?_, ?_, ?_, ?_⟩
  · simp [UnorderedMap.entry_at, hd]
  · intro fuel hfuel
    rw [hI.traverse_eq fuel hfuel, e1]
  · intro fuel hfuel
    rw [hst] at hfuel ⊢
    rw [hI'.traverse_eq fuel hfuel, e4]
  · intro hys
    rw [hret, hys]; rfl
  · rw [hret, hst]
    cases t with
    | nil => rfl
    | cons y ys =>
        have hy : y ∈ (m.erase n1.val.1).1.nodes := by rw [e4]; simp
        obtain ⟨ny, hdy⟩ := hI'.deref_mem y hy
        simp [UnorderedMap.entry_at, hdy]
  · rw [hst]
    show (m.erase n1.val.1).1._size + 1 = m._size
    rw [e5]; omega
  · rw [hst]
    have := (hI.erase_found_find n1.val.1 q hf n1.val.1).1
    rw [if_pos rfl] at this
    exact this

theorem demo_live : demo_table.live (some 1) := ⟨1, rfl, by decide⟩

theorem erase_it_returns_next_witness :
    Reachable demo_table ∧ demo_table.live (some 1) ∧
    ((∃ n xs ys,
      demo_table.entry_at (some 1) = some n.val ∧ some 1 = some n.id ∧
      (∀ fuel, demo_table.size ≤ fuel → demo_table.traverse fuel = some (xs ++ n :: ys)) ∧
      (∀ fuel, (demo_table.erase_it (some 1)).1.size ≤ fuel →
        (demo_table.erase_it (some 1)).1.traverse fuel = some (xs ++ ys)) ∧
      (demo_table.erase_it (some 1)).2 = ys.head?.map HashNode.id ∧
      (ys = [] → (demo_table.erase_it (some 1)).2 = (demo_table.erase_it (some 1)).1.end_) ∧
      (demo_table.erase_it (some 1)).1.entry_at (demo_table.erase_it (some 1)).2
        = ys.head?.map HashNode.val ∧
      (demo_table.erase_it (some 1)).1.size + 1 = demo_table.size ∧
      (demo_table.erase_it (some 1)).1.find n.val.1 = (demo_table.erase_it (some 1)).1.end_) ∧
    demo_table.erase_it demo_table.end_ = (demo_table, demo_table.end_)) :=
  ⟨demo_reachable, demo_live,
    erase_it_returns_next demo_table (some 1) demo_reachable demo_live⟩

/-- C9: on a reachable table `clear()` terminates: with any fuel of at least `size()` its
loop ends after exactly `size()` iterations, each of which erases one entry, and with less
fuel it does not end. It leaves `size() == 0`, every bucket empty, the first pointer none
(`begin() == end()`) and `bucket_count()` as it was. -/
theorem clear_terminates_empty [Inhabited V] (m : UnorderedMap K V) (hr : Reachable m) :
    ∃ m1,
      (∀ fuel, m.size ≤ fuel → m.clear_loop fuel = some (m1, m.size)) ∧
      (∀ fuel, fuel < m.size → m.clear_loop fuel = none) ∧
      (m.size ≠ 0 → (m.erase_it m.begin_).1.size + 1 = m.size) ∧
      m1.size = 0 ∧ (∀ n, m1.chain n = []) ∧ m1._head = none ∧ m1.begin_ = m1.end_ ∧
      m1.bucket_count = m.bucket_count := by
  have hI := hr.inv
  refine ⟨{ m with _buckets := List.replicate m._bucket_count [], _head := none, _size := 0 },
    fun fuel hf => hI.clear_loop fuel hf, ?_, ?_, rfl, ?_, rfl, rfl, rfl⟩
  · intro fuel hf
    cases h : m.clear_loop fuel with
    | none => rfl
    | some r =>
        have := hI.clear_loop_fuel fuel r h
        exact absurd hf (by show ¬ fuel < m._size; omega)
  · intro hs
    have := (hI.erase_it_head hs).1
    show (m.erase_it m.begin_).1._size + 1 = m._size
    rw [this]
    have : m._size ≠ 0 := hs
    omega
  · intro n
    show (List.replicate m._bucket_count ([] : List (HashNode K V))).getD n [] = []
    rw [List.getD_eq_getElem?_getD]
    cases h : (List.replicate m._bucket_count ([] : List (HashNode K V)))[n]? with
    | none => rfl
    | some c =>
        have := List.getElem?_mem h
        rw [List.mem_replicate] at this
        rw [this.2]; rfl

theorem clear_terminates_empty_witness :
    Reachable demo_table ∧
    ∃ m1,
      (∀ fuel, demo_table.size ≤ fuel → demo_table.clear_loop fuel = some (m1, demo_table.size)) ∧
      (∀ fuel, fuel < demo_table.size → demo_table.clear_loop fuel = none) ∧
      (demo_table.size ≠ 0 →
        (demo_table.erase_it demo_table.begin_).1.size + 1 = demo_table.size) ∧
      m1.size = 0 ∧ (∀ n, m1.chain n = []) ∧ m1._head = none ∧ m1.begin_ = m1.end_ ∧
      m1.bucket_count = demo_table.bucket_count :=
  ⟨demo_reachable, clear_terminates_empty demo_table demo_reachable⟩

theorem size_t_of_char_byte (c : Int) (h0 : 0 ≤ c) (h1 : c < 256) :
    size_t_of_char c = byte_of_char c := by
  unfold size_t_of_char byte_of_char
  rw [Int.emod_eq_of_lt h0 (by omega), Int.emod_eq_of_lt h0 h1]

theorem fnv1a_foldl_eq (s : List Int) (h : ∀ c, c ∈ s → 0 ≤ c ∧ c < 256) (init : Nat) :
    s.foldl (fun hash c => ((hash ^^^ size_t_of_char c) * 0x00000100000001B3) % 2 ^ 64) init
      = (s.map byte_of_char).foldl
          (fun h b => ((h ^^^ b) * 0x00000100000001B3) % 2 ^ 64) init := by
  induction s generalizing init with
  | nil => rfl
  | cons c rest ih =>
      have hc := h c (List.mem_cons_self _ _)
      simp only [List.foldl_cons, List.map_cons]
      rw [size_t_of_char_byte c hc.1 hc.2]
      exact ih (fun x hx => h x (List.mem_cons_of_mem _ hx)) _

theorem fnv1a_hash_eq_standard_of_nonneg (s : List Int)
    (h : ∀ c, c ∈ s → 0 ≤ c ∧ c < 256) : fnv1a_hash s = fnv1a_standard (s.map byte_of_char) :=
  fnv1a_foldl_eq s h _

/-- C11: the function `fnv1a_hash` is not the standard 64-bit FNV-1a on a string that holds
a byte of `0x80` or more where `char` is signed: the `char` value `-128` of the byte `0x80`
is converted to `0xFFFFFFFFFFFFFF80` before the xor. On the empty string and on `"a"` the two
agree. -/
theorem fnv1a_hash_sign_extension :
    byte_of_char (-128) = 0x80 ∧
    size_t_of_char (-128) = 0xFFFFFFFFFFFFFF80 ∧
    fnv1a_hash [-128] = 0x509C0CB379FDEC5F ∧
    fnv1a_standard [byte_of_char (-128)] = 0xAF643D4C8602915F ∧
    fnv1a_hash [-128] ≠ fnv1a_standard ([-128].map byte_of_char) ∧
    fnv1a_hash [] = 0xCBF29CE484222325 ∧
    fnv1a_hash [97] = 0xAF63DC4C8601EC8C := by
  decide

theorem copy_chain_eq (m : UnorderedMap K V) (c : List (HashNode K V)) :
    UnorderedMap.copy_chain m c = insert_calls m (c.map (fun n => (false, n.val))) := by
  induction c generalizing m with
  | nil => rfl
  | cons x rest ih =>
      simp only [UnorderedMap.copy_chain, ih, List.map_cons]
      rfl

theorem insert_calls_append (m : UnorderedMap K V) (l1 l2 : List (Bool × (K × V))) :
    insert_calls m (l1 ++ l2) = insert_calls (insert_calls m l1) l2 := by
  unfold insert_calls
  rw [List.foldl_append]

theorem copy_fold_eq (other : UnorderedMap K V) (l : List Nat) (m : UnorderedMap K V) :
    l.foldl (fun acc i => UnorderedMap.copy_chain acc (other.chain i)) m
      = insert_calls m ((l.map other.chain).flatten.map (fun n => (false, n.val))) := by
  induction l generalizing m with
  | nil => rfl
  | cons i rest ih =>
      simp only [List.foldl_cons, List.map_cons, List.flatten_cons, List.map_append]
      rw [ih, copy_chain_eq, insert_calls_append]

theorem range_map_chain (other : UnorderedMap K V) (n : Nat)
    (h : other._buckets.length = n) : (List.range n).map other.chain = other._buckets := by
  apply List.ext_getElem
  · simp [h]
  · intro i h1 h2
    simp only [List.getElem_map, List.getElem_range, UnorderedMap.chain]
    rw [List.getD_eq_getElem _ _ h2]

theorem copy_buckets_eq (m other : UnorderedMap K V)
    (h : other._buckets.length = m._bucket_count) :
    UnorderedMap.copy_buckets m other
      = insert_calls m (other.nodes.map (fun n => (false, n.val))) := by
  unfold UnorderedMap.copy_buckets
  rw [copy_fold_eq, range_map_chain other _ h]
  rfl

theorem Inv.insert_fields {m : UnorderedMap K V} (hI : Inv m) (value : K × V) :
    (m.insert value).1._bucket_count = m._bucket_count ∧
    (m.insert value).1._hash = m._hash := by
  cases hf : m.find value.1 with
  | some p => rw [insert_present m value p hf]; exact ⟨rfl, rfl⟩
  | none =>
      obtain ⟨_, _, _, _, _, _, _, h1, h2, _⟩ := hI.insert_absent_nodes value hf
      exact ⟨h1, h2⟩

theorem Inv.insert_calls_fields {m : UnorderedMap K V} (hI : Inv m)
    (calls : List (Bool × (K × V))) :
    Inv (insert_calls m calls) ∧
    (insert_calls m calls)._bucket_count = m._bucket_count ∧
    (insert_calls m calls)._hash = m._hash := by
  induction calls generalizing m with
  | nil => exact ⟨hI, rfl, rfl⟩
  | cons c rest ih =>
      have e : insert_calls m (c :: rest) = insert_calls (m.insert c.2).1 rest := by
        show List.foldl insert_call (insert_call m c) rest = _
        rw [insert_call_eq]; rfl
      rw [e]
      obtain ⟨h1, h2, h3⟩ := ih (hI.insert c.2)
      obtain ⟨h4, h5⟩ := hI.insert_fields c.2
      exact ⟨h1, by rw [h2, h4], by rw [h3, h5]⟩

theorem find?_map_val (l : List (HashNode K V)) (k : K) :
    (l.map HashNode.val).find? (fun e => decide (e.1 = k))
      = (l.find? (fun n => decide (n.val.1 = k))).map HashNode.val := by
  rw [List.find?_map]
  rfl

theorem Inv.entry_none_iff {m : UnorderedMap K V} (hI : Inv m) (k : K) :
    m.find k = none ↔ m.entry_at (m.find k) = none := by
  rw [hI.entry_find, hI.find_nodes]
  cases m.nodes.find? (fun n => decide (n.val.1 = k)) <;> simp

theorem Inv.copy_spec {other : UnorderedMap K V} (hO : Inv other) (m0 : UnorderedMap K V)
    (h0 : Inv m0) (hn : m0.nodes = []) (hbc : m0._bucket_count = other._bucket_count) :
    Inv (UnorderedMap.copy_buckets m0 other) ∧
    (UnorderedMap.copy_buckets m0 other)._bucket_count = other._bucket_count ∧
    (UnorderedMap.copy_buckets m0 other)._hash = m0._hash ∧
    (UnorderedMap.copy_buckets m0 other)._size = other._size ∧
    (∀ k, (UnorderedMap.copy_buckets m0 other).entry_at
        ((UnorderedMap.copy_buckets m0 other).find k) = other.entry_at (other.find k)) ∧
    ∀ k, (UnorderedMap.copy_buckets m0 other).find k = none ↔ other.find k = none := by
  rw [copy_buckets_eq m0 other (by rw [hO.len, hbc])]
  obtain ⟨hI, h1, h2⟩ := h0.insert_calls_fields (other.nodes.map (fun n => (false, n.val)))
  obtain ⟨_, h3, h4⟩ := insert_calls_spec m0 h0 hn (other.nodes.map (fun n => (false, n.val)))
  have hent : ∀ k, (insert_calls m0 (other.nodes.map (fun n => (false, n.val)))).entry_at
      ((insert_calls m0 (other.nodes.map (fun n => (false, n.val)))).find k)
      = other.entry_at (other.find k) := by
    intro k
    rw [h4 k, hO.entry_find, List.map_map]
    exact find?_map_val other.nodes k
  refine ⟨hI, by rw [h1, hbc], h2, ?_, hent, ?_⟩
  · rw [h3, List.map_map, hO.size]
    have : ((fun c : Bool × (K × V) => c.2.1) ∘ fun n : HashNode K V => (false, n.val))
        = fun n => n.val.1 := rfl
    rw [this, List.toFinset_card_of_nodup hO.keys, List.length_map]
  · intro k
    rw [hI.entry_none_iff, hO.entry_none_iff, hent k]

/-- C12: the copy of a reachable table `t`, made by the copy constructor or by copy
assignment to another reachable table, has the `bucket_count()` and the `size()` of `t`,
and for every key `find` gives the same presence and the same entry as in `t`. The copy
assignment returns with any fuel of at least the `size()` of the table assigned to. The
table `t` is an argument that no function of the model returns changed. -/
theorem copy_same_content [Inhabited V] (t m : UnorderedMap K V) (fuel : Nat)
    (hr : Reachable t) (hm : Reachable m) (hf : m.size ≤ fuel) :
    ((UnorderedMap.copy_construct t).bucket_count = t.bucket_count ∧
     (UnorderedMap.copy_construct t).size = t.size ∧
     ∀ k, ((UnorderedMap.copy_construct t).find k = (UnorderedMap.copy_construct t).end_ ↔
            t.find k = t.end_) ∧
          (UnorderedMap.copy_construct t).entry_at ((UnorderedMap.copy_construct t).find k)
            = t.entry_at (t.find k)) ∧
    ∃ m1, m.copy_assign fuel t = some m1 ∧
      m1.bucket_count = t.bucket_count ∧ m1.size = t.size ∧
      ∀ k, (m1.find k = m1.end_ ↔ t.find k = t.end_) ∧
        m1.entry_at (m1.find k) = t.entry_at (t.find k) := by
  have hO := hr.inv
  constructor
  · unfold UnorderedMap.copy_construct
    obtain ⟨_, h1, _, h3, h4, h5⟩ := hO.copy_spec _
      (Inv.of_empty
        ({ _bucket_count := t._bucket_count, _size := 0,
           _buckets := List.replicate t._bucket_count [], _hash := t._hash, _head := none,
           allocated := t.allocated } : UnorderedMap K V) rfl hO.pos rfl rfl)
      (flatten_replicate_nil _) rfl
    exact ⟨h1, h3, fun k => ⟨h5 k, h4 k⟩⟩
  · have hI := hm.inv
    refine ⟨_, by unfold UnorderedMap.copy_assign; rw [hI.clear_loop fuel hf]; rfl, ?_⟩
    unfold UnorderedMap.copy_assign_cleared
    obtain ⟨_, h1, _, h3, h4, h5⟩ := hO.copy_spec _
      (Inv.of_empty
        ({ _bucket_count := t._bucket_count, _size := 0,
           _buckets := List.replicate t._bucket_count [], _hash := t._hash, _head := none,
           allocated := m.allocated } : UnorderedMap K V) rfl hO.pos rfl rfl)
      (flatten_replicate_nil _) rfl
    exact ⟨h1, h3, fun k => ⟨h5 k, h4 k⟩⟩

theorem copy_same_content_witness :
    Reachable demo_table ∧ Reachable (demo_table.erase 4).1 ∧ (demo_table.erase 4).1.size ≤ 2 ∧
    (((UnorderedMap.copy_construct demo_table).bucket_count = demo_table.bucket_count ∧
     (UnorderedMap.copy_construct demo_table).size = demo_table.size ∧
     ∀ k, ((UnorderedMap.copy_construct demo_table).find k = (UnorderedMap.copy_construct demo_table).end_ ↔
            demo_table.find k = demo_table.end_) ∧
          (UnorderedMap.copy_construct demo_table).entry_at ((UnorderedMap.copy_construct demo_table).find k)
            = demo_table.entry_at (demo_table.find k)) ∧
    ∃ m1, (demo_table.erase 4).1.copy_assign 2 demo_table = some m1 ∧
      m1.bucket_count = demo_table.bucket_count ∧ m1.size = demo_table.size ∧
      ∀ k, (m1.find k = m1.end_ ↔ demo_table.find k = demo_table.end_) ∧
        m1.entry_at (m1.find k) = demo_table.entry_at (demo_table.find k)) :=
  ⟨demo_reachable, Reachable.erase _ _ demo_reachable, by decide,
    copy_same_content demo_table (demo_table.erase 4).1 2 demo_reachable
      (Reachable.erase _ _ demo_reachable) (by decide)⟩

theorem getD_replicate_nil (n i : Nat) :
    (List.replicate n ([] : List (HashNode K V))).getD i [] = [] := by
  rw [List.getD_eq_getElem?_getD]
  cases h : (List.replicate n ([] : List (HashNode K V)))[i]? with
  | none => rfl
  | some c =>
      have := List.getElem?_mem h
      rw [List.mem_replicate] at this
      rw [this.2]; rfl

/-- C13: move construction from a reachable table `src`, and move assignment from it to a
reachable table `dst`, give the target exactly the former state of `src` (bucket count,
bucket array and so the chain of every bucket, first node, size, hash function) and leave
`src` with `size() == 0`, `bucket_count()` buckets that are all empty, no first node, and
its `bucket_count()`. The move assignment returns with any fuel of at least the `size()` of
`dst`. -/
theorem move_transfers_state [Inhabited V] (src dst : UnorderedMap K V) (fuel : Nat)
    (hr : Reachable src) (hd : Reachable dst) (hf : dst.size ≤ fuel) :
    (UnorderedMap._move_content src dst).2 = src ∧
    ((UnorderedMap._move_content src dst).2.bucket_count = src.bucket_count ∧
     (∀ n, (UnorderedMap._move_content src dst).2.chain n = src.chain n) ∧
     (UnorderedMap._move_content src dst).2._head = src._head ∧
     (UnorderedMap._move_content src dst).2.size = src.size) ∧
    ((UnorderedMap._move_content src dst).1.size = 0 ∧
     (UnorderedMap._move_content src dst).1._buckets.length = src.bucket_count ∧
     (∀ n, (UnorderedMap._move_content src dst).1.chain n = []) ∧
     (UnorderedMap._move_content src dst).1._head = none ∧
     (UnorderedMap._move_content src dst).1.bucket_count = src.bucket_count) ∧
    ∃ cleared, dst.clear fuel = some cleared ∧
      dst.move_assign fuel src = some (UnorderedMap._move_content src cleared) ∧
      (UnorderedMap._move_content src cleared).2 = src ∧
      (UnorderedMap._move_content src cleared).1 = (UnorderedMap._move_content src dst).1 := by
  have hI := hd.inv
  have e : (UnorderedMap._move_content src dst).2 = src := by cases src; rfl
  refine ⟨e, ⟨by rw [e], by intro n; rw [e], by rw [e], by rw [e]⟩,
    ⟨rfl, by simp [UnorderedMap._move_content, UnorderedMap.bucket_count],
      fun n => getD_replicate_nil _ n, rfl, rfl⟩, ?_⟩
  refine ⟨{ dst with _buckets := List.replicate dst._bucket_count [], _head := none,
                     _size := 0 },
    by unfold UnorderedMap.clear; rw [hI.clear_loop fuel hf]; rfl,
    by unfold UnorderedMap.move_assign; rw [hI.clear_loop fuel hf]; rfl, ?_, rfl⟩
  cases src; rfl

/-- C14: in a reachable table the first node, the one `begin()` designates, is none exactly
when the table is empty, and otherwise it is the head node of the chain of the lowest-indexed
non-empty bucket. -/
theorem head_of_lowest_bucket [Inhabited V] (m : UnorderedMap K V) (hr : Reachable m) :
    (m.begin_ = none ↔ m.size = 0) ∧
    (m.begin_ = m.end_ ↔ m.empty = true) ∧
    (m.size ≠ 0 →
      ∃ i node rest, i < m.bucket_count ∧ m.chain i = node :: rest ∧
        (∀ j, j < i → m.chain j = []) ∧ m.begin_ = some node.id ∧
        m.begin_ = m.bucket_ptr i ∧ m.entry_at m.begin_ = some node.val) := by
  have hI := hr.inv
  have h1 : m._head = none ↔ m._size = 0 := by
    rw [hI.head, hI.size]
    cases m.nodes <;> simp
  refine ⟨h1, by simpa [UnorderedMap.empty, UnorderedMap.end_] using h1, ?_⟩
  intro hs
  cases hh : m._head with
  | none => exact absurd (h1.mp hh) hs
  | some p =>
      obtain ⟨hn, ys, hys, hp⟩ := hI.nodes_cons_of_head p hh
      obtain ⟨pre, a, b, post, e1, e2, e3⟩ := flatten_split m._buckets [] ys hn hys
      obtain ⟨hpre, ha⟩ := List.append_eq_nil.mp e2.symm
      subst ha
      have hc : m.chain pre.length = hn :: b := chain_mid m pre post _ e1
      have hd := hI.deref_split e1
      refine ⟨pre.length, hn, b, ?_, hc, ?_, by show m._head = _; rw [hh, hp], ?_, ?_⟩
      · show pre.length < m._bucket_count
        rw [← hI.len, e1]; simp
      · intro j hj
        cases hcj : m.chain j with
        | nil => rfl
        | cons x xs =>
            have : x ∈ pre.flatten :=
              (mem_pre_flatten m._buckets pre _ x e1).mpr ⟨j, hj, by
                show x ∈ m.chain j
                rw [hcj]; simp⟩
            rw [hpre] at this; simp at this
      · show m._head = _
        unfold UnorderedMap.bucket_ptr
        rw [hc, hh, ← hp]; rfl
      · show m.entry_at m._head = _
        rw [hh, ← hp]
        simp [UnorderedMap.entry_at, hd]

theorem move_transfers_state_witness :
    Reachable demo_table ∧ Reachable (demo_table.erase 4).1 ∧ (demo_table.erase 4).1.size ≤ 2 ∧
    ((UnorderedMap._move_content demo_table (demo_table.erase 4).1).2 = demo_table ∧
    ((UnorderedMap._move_content demo_table (demo_table.erase 4).1).2.bucket_count = demo_table.bucket_count ∧
     (∀ n, (UnorderedMap._move_content demo_table (demo_table.erase 4).1).2.chain n = demo_table.chain n) ∧
     (UnorderedMap._move_content demo_table (demo_table.erase 4).1).2._head = demo_table._head ∧
     (UnorderedMap._move_content demo_table (demo_table.erase 4).1).2.size = demo_table.size) ∧
    ((UnorderedMap._move_content demo_table (demo_table.erase 4).1).1.size = 0 ∧
     (UnorderedMap._move_content demo_table (demo_table.erase 4).1).1._buckets.length = demo_table.bucket_count ∧
     (∀ n, (UnorderedMap._move_content demo_table (demo_table.erase 4).1).1.chain n = []) ∧
     (UnorderedMap._move_content demo_table (demo_table.erase 4).1).1._head = none ∧
     (UnorderedMap._move_content demo_table (demo_table.erase 4).1).1.bucket_count = demo_table.bucket_count) ∧
    ∃ cleared, (demo_table.erase 4).1.clear 2 = some cleared ∧
      (demo_table.erase 4).1.move_assign 2 demo_table = some (UnorderedMap._move_content demo_table cleared) ∧
      (UnorderedMap._move_content demo_table cleared).2 = demo_table ∧
      (UnorderedMap._move_content demo_table cleared).1 = (UnorderedMap._move_content demo_table (demo_table.erase 4).1).1) :=
  ⟨demo_reachable, Reachable.erase _ _ demo_reachable, by decide,
    move_transfers_state demo_table (demo_table.erase 4).1 2 demo_reachable
      (Reachable.erase _ _ demo_reachable) (by decide)⟩

theorem head_of_lowest_bucket_witness :
    Reachable demo_table ∧
    ((demo_table.begin_ = none ↔ demo_table.size = 0) ∧
    (demo_table.begin_ = demo_table.end_ ↔ demo_table.empty = true) ∧
    (demo_table.size ≠ 0 →
      ∃ i node rest, i < demo_table.bucket_count ∧ demo_table.chain i = node :: rest ∧
        (∀ j, j < i → demo_table.chain j = []) ∧ demo_table.begin_ = some node.id ∧
        demo_table.begin_ = demo_table.bucket_ptr i ∧ demo_table.entry_at demo_table.begin_ = some node.val)) :=
  ⟨demo_reachable, head_of_lowest_bucket demo_table demo_reachable⟩

/-- C15: in a reachable table every node of the chain of bucket `i` has a key `k` with
`hash(k) mod bucket_count() == i`; `bucket(k)` is `hash(k) mod bucket_count()`, a valid
bucket index, for every key; and the node of a stored key is in the chain of bucket
`bucket(k)`, where `find` gets it. -/
theorem node_in_home_bucket [Inhabited V] (m : UnorderedMap K V) (hr : Reachable m) :
    (∀ i n, n ∈ m.chain i → m._hash n.val.1 % m.bucket_count = i) ∧
    (∀ k, m.bucket k = m._hash k % m.bucket_count ∧ m.bucket k < m.bucket_count) ∧
    (∀ n, n ∈ m.nodes → n ∈ m.chain (m.bucket n.val.1)) ∧
    (∀ k, m.find k ≠ m.end_ →
      ∃ n, n ∈ m.chain (m.bucket k) ∧ n.val.1 = k ∧ m.find k = some n.id) := by
  have hI := hr.inv
  refine ⟨hI.home, fun k => ⟨rfl, Nat.mod_lt _ hI.pos⟩, hI.mem_home, ?_⟩
  intro k hk
  obtain ⟨p, hp⟩ := Option.ne_none_iff_exists'.mp hk
  obtain ⟨n, hn, hnk, hnp⟩ := (hI.find_some_iff k p).mp hp
  refine ⟨n, ?_, hnk, by rw [hp, hnp]⟩
  have := hI.mem_home n hn
  rw [hnk] at this
  exact this

theorem Inv.chain_sublist (m : UnorderedMap K V) (i : Nat) :
    List.Sublist (m.chain i) m.nodes := by
  unfold UnorderedMap.chain UnorderedMap.nodes
  by_cases hi : i < m._buckets.length
  · rw [List.getD_eq_getElem _ _ hi]
    exact List.sublist_flatten_of_mem (List.getElem_mem hi)
  · rw [List.getD_eq_default _ _ (Nat.le_of_not_lt hi)]
    exact List.nil_sublist _

/-- C16: in a reachable table no two nodes, of one chain or of two, hold equal keys; and the
tables that `insert`, `operator[]`, `erase`, `clear`, copy and move make of it have unique
keys too. -/
theorem keys_unique [Inhabited V] (m : UnorderedMap K V) (hr : Reachable m) :
    (m.nodes.map (fun n => n.val.1)).Nodup ∧
    (∀ i, ((m.chain i).map (fun n => n.val.1)).Nodup) ∧
    (∀ i j x y, x ∈ m.chain i → y ∈ m.chain j → x.val.1 = y.val.1 → x = y ∧ i = j) ∧
    (∀ value, ((m.insert value).1.nodes.map (fun n => n.val.1)).Nodup ∧
      ((m.insert_rv value).1.nodes.map (fun n => n.val.1)).Nodup) ∧
    (∀ key, ((m.subscript key).1.nodes.map (fun n => n.val.1)).Nodup ∧
      ((m.erase key).1.nodes.map (fun n => n.val.1)).Nodup) ∧
    (∀ pos, ((m.erase_it pos).1.nodes.map (fun n => n.val.1)).Nodup) ∧
    (∀ fuel m1, m.clear fuel = some m1 → (m1.nodes.map (fun n => n.val.1)).Nodup) ∧
    ((UnorderedMap.copy_construct m).nodes.map (fun n => n.val.1)).Nodup ∧
    (∀ fuel other m1, Reachable other → other.copy_assign fuel m = some m1 →
      (m1.nodes.map (fun n => n.val.1)).Nodup) ∧
    (∀ dst, ((UnorderedMap._move_content m dst).1.nodes.map (fun n => n.val.1)).Nodup ∧
      ((UnorderedMap._move_content m dst).2.nodes.map (fun n => n.val.1)).Nodup) := by
  have hI := hr.inv
  refine ⟨hI.keys, fun i => hI.keys.sublist ((Inv.chain_sublist m i).map _), ?_,
    fun value => ⟨(hI.insert value).keys, by rw [insert_rv_eq]; exact (hI.insert value).keys⟩,
    fun key => ⟨(hI.insert (key, default)).keys, (hI.erase key).keys⟩,
    fun pos => (hI.erase_it pos).keys,
    fun fuel m1 h => (Reachable.clear m m1 fuel hr h).inv.keys,
    hI.copy_construct.keys,
    fun fuel other m1 ho h => (ho.inv.copy_assign hI fuel h).keys,
    fun dst => ⟨(hI.moved_from dst).keys, (hI.moved_to dst).keys⟩⟩
  intro i j x y hx hy hxy
  have e := hI.key_inj (mem_chain_nodes m i x hx) (mem_chain_nodes m j y hy) hxy
  refine ⟨e, ?_⟩
  rw [← hI.home i x hx, ← hI.home j y hy, e]

theorem bucket_size_loop_eq (c : List (HashNode K V)) (size : Nat) :
    UnorderedMap.bucket_size_loop c size = size + c.length := by
  induction c generalizing size with
  | nil => rfl
  | cons x rest ih =>
      simp only [UnorderedMap.bucket_size_loop, ih, List.length_cons]
      omega

theorem bucket_size_eq (m : UnorderedMap K V) (n : Nat) :
    m.bucket_size n = (m.chain n).length := by
  unfold UnorderedMap.bucket_size
  rw [bucket_size_loop_eq]; omega

theorem Inv.sum_bucket_size {m : UnorderedMap K V} (hI : Inv m) :
    m._size = ((List.range m._bucket_count).map m.bucket_size).sum := by
  have h1 : (List.range m._bucket_count).map m.bucket_size
      = ((List.range m._bucket_count).map m.chain).map List.length := by
    rw [List.map_map]
    apply List.map_congr_left
    intro n _
    exact bucket_size_eq m n
  rw [h1, range_map_chain m _ hI.len, ← List.length_flatten]
  exact hI.size

theorem insert_calls_reachable [Inhabited V] (m : UnorderedMap K V)
    (calls : List (Bool × (K × V))) (hr : Reachable m) : Reachable (insert_calls m calls) := by
  induction calls generalizing m with
  | nil => exact hr
  | cons c rest ih =>
      have e : insert_calls m (c :: rest) = insert_calls (m.insert c.2).1 rest := by
        show List.foldl insert_call (insert_call m c) rest = _
        rw [insert_call_eq]; rfl
      rw [e]
      exact ih _ (Reachable.insert m c.2 hr)

/-- C17: in a reachable table `size()` is the sum of `bucket_size(n)` over the buckets
`n < bucket_count()`, `bucket_size(n)` being the length of the chain of bucket `n`; and in a
table constructed with a single bucket, after any sequence of `insert` calls `bucket_size(0)`
is `size()`, the number of distinct keys inserted. -/
theorem size_is_sum_of_bucket_sizes [Inhabited V] (m : UnorderedMap K V)
    (next_greater_prime : Nat → Nat) (bucket_count : Nat) (hash : K → Nat) (allocated : Nat)
    (calls : List (Bool × (K × V))) (hr : Reachable m)
    (h1 : next_greater_prime bucket_count = 1) :
    m.size = ((List.range m.bucket_count).map m.bucket_size).sum ∧
    (∀ n, m.bucket_size n = (m.chain n).length) ∧
    (insert_calls (UnorderedMap.construct next_greater_prime bucket_count hash allocated)
        calls).bucket_size 0
      = (insert_calls (UnorderedMap.construct next_greater_prime bucket_count hash allocated)
        calls).size ∧
    (insert_calls (UnorderedMap.construct next_greater_prime bucket_count hash allocated)
        calls).bucket_size 0 = ((calls.map (fun c => c.2.1)).toFinset).card := by
  refine ⟨hr.inv.sum_bucket_size, bucket_size_eq m, ?_⟩
  have h0 : Reachable (UnorderedMap.construct next_greater_prime bucket_count hash allocated :
      UnorderedMap K V) := Reachable.construct _ _ _ _ (by omega)
  have hI0 := h0.inv
  have hI := (insert_calls_reachable _ calls h0).inv
  obtain ⟨_, hbc, _⟩ := hI0.insert_calls_fields calls
  obtain ⟨_, hs, _⟩ := insert_calls_spec _ hI0 (flatten_replicate_nil _) calls
  have hsum := hI.sum_bucket_size
  have hone : (insert_calls (UnorderedMap.construct next_greater_prime bucket_count hash
      allocated : UnorderedMap K V) calls)._bucket_count = 1 := by
    rw [hbc]; exact h1
  rw [hone] at hsum
  simp only [List.range_succ, List.range_zero, List.nil_append, List.map_cons, List.map_nil,
    List.sum_cons, List.sum_nil, Nat.add_zero] at hsum
  have e : (insert_calls (UnorderedMap.construct next_greater_prime bucket_count hash
      allocated : UnorderedMap K V) calls).bucket_size 0
      = (insert_calls (UnorderedMap.construct next_greater_prime bucket_count hash
      allocated : UnorderedMap K V) calls).size := hsum.symm
  exact ⟨e, by rw [e]; exact hs⟩

theorem node_in_home_bucket_witness :
    Reachable demo_table ∧
    ((∀ i n, n ∈ demo_table.chain i → demo_table._hash n.val.1 % demo_table.bucket_count = i) ∧
    (∀ k, demo_table.bucket k = demo_table._hash k % demo_table.bucket_count ∧ demo_table.bucket k < demo_table.bucket_count) ∧
    (∀ n, n ∈ demo_table.nodes → n ∈ demo_table.chain (demo_table.bucket n.val.1)) ∧
    (∀ k, demo_table.find k ≠ demo_table.end_ →
      ∃ n, n ∈ demo_table.chain (demo_table.bucket k) ∧ n.val.1 = k ∧ demo_table.find k = some n.id)) :=
  ⟨demo_reachable, node_in_home_bucket demo_table demo_reachable⟩

theorem keys_unique_witness :
    Reachable demo_table ∧
    ((demo_table.nodes.map (fun n => n.val.1)).Nodup ∧
    (∀ i, ((demo_table.chain i).map (fun n => n.val.1)).Nodup) ∧
    (∀ i j x y, x ∈ demo_table.chain i → y ∈ demo_table.chain j → x.val.1 = y.val.1 → x = y ∧ i = j) ∧
    (∀ value, ((demo_table.insert value).1.nodes.map (fun n => n.val.1)).Nodup ∧
      ((demo_table.insert_rv value).1.nodes.map (fun n => n.val.1)).Nodup) ∧
    (∀ key, ((demo_table.subscript key).1.nodes.map (fun n => n.val.1)).Nodup ∧
      ((demo_table.erase key).1.nodes.map (fun n => n.val.1)).Nodup) ∧
    (∀ pos, ((demo_table.erase_it pos).1.nodes.map (fun n => n.val.1)).Nodup) ∧
    (∀ fuel m1, demo_table.clear fuel = some m1 → (m1.nodes.map (fun n => n.val.1)).Nodup) ∧
    ((UnorderedMap.copy_construct demo_table).nodes.map (fun n => n.val.1)).Nodup ∧
    (∀ fuel other m1, Reachable other → other.copy_assign fuel demo_table = some m1 →
      (m1.nodes.map (fun n => n.val.1)).Nodup) ∧
    (∀ dst, ((UnorderedMap._move_content demo_table dst).1.nodes.map (fun n => n.val.1)).Nodup ∧
      ((UnorderedMap._move_content demo_table dst).2.nodes.map (fun n => n.val.1)).Nodup)) :=
  ⟨demo_reachable, keys_unique demo_table demo_reachable⟩

theorem size_is_sum_of_bucket_sizes_witness :
    Reachable demo_table ∧ (fun _ : Nat => 1) 1 = 1 ∧
    (demo_table.size = ((List.range demo_table.bucket_count).map demo_table.bucket_size).sum ∧
    (∀ n, demo_table.bucket_size n = (demo_table.chain n).length) ∧
    (insert_calls (UnorderedMap.construct (fun _ : Nat => 1) 1 (fun k : Nat => k) 0)
        ((List.range 20).map (fun i => (false, (i, i))) : List (Bool × (Nat × Nat)))).bucket_size 0
      = (insert_calls (UnorderedMap.construct (fun _ : Nat => 1) 1 (fun k : Nat => k) 0)
        ((List.range 20).map (fun i => (false, (i, i))) : List (Bool × (Nat × Nat)))).size ∧
    (insert_calls (UnorderedMap.construct (fun _ : Nat => 1) 1 (fun k : Nat => k) 0)
        ((List.range 20).map (fun i => (false, (i, i))) : List (Bool × (Nat × Nat)))).bucket_size 0 = ((((List.range 20).map (fun i => (false, (i, i))) : List (Bool × (Nat × Nat))).map (fun c => c.2.1)).toFinset).card) :=
  ⟨demo_reachable, rfl,
    size_is_sum_of_bucket_sizes demo_table (fun _ => 1) 1 (fun k => k) 0
      ((List.range 20).map (fun i => (false, (i, i)))) demo_reachable rfl⟩

/-- C18: in a reachable table that stores `k`, the full traversal after `erase(k)` is the
full traversal before the call without the node of `k`: the other nodes are visited in the
same order, each with the entry it had. -/
theorem erase_keeps_traversal_order [Inhabited V] (m : UnorderedMap K V) (k : K)
    (hr : Reachable m) (hk : m.find k ≠ m.end_) :
    ∃ xs n ys,
      n.val.1 = k ∧ m.find k = some n.id ∧
      (∀ fuel, m.size ≤ fuel → m.traverse fuel = some (xs ++ n :: ys)) ∧
      (∀ fuel, (m.erase k).1.size ≤ fuel → (m.erase k).1.traverse fuel = some (xs ++ ys)) ∧
      (∀ x, x ∈ xs ++ ys → x.val.1 ≠ k) ∧
      xs ++ ys = (xs ++ n :: ys).filter (fun x => decide (x.val.1 ≠ k)) := by
  have hI := hr.inv
  obtain ⟨p, hp⟩ := Option.ne_none_iff_exists'.mp hk
  obtain ⟨s, n, t, e1, e2, e3, e4, _⟩ := hI.erase_found_nodes k p hp
  have hI' := hI.erase k
  have hne : ∀ x, x ∈ s ++ t → x.val.1 ≠ k := by
    intro x hx hxe
    have hk := hI.keys
    rw [e1, List.map_append, List.map_cons] at hk
    have h1 := List.nodup_append.mp hk
    rcases List.mem_append.mp hx with hx | hx
    · exact h1.2.2 (List.mem_map_of_mem _ hx) (by rw [hxe, e2]; simp)
    · exact (List.nodup_cons.mp h1.2.1).1 (by rw [e2, ← hxe]; exact List.mem_map_of_mem _ hx)
  refine ⟨s, n, t, e2, by rw [hp, e3], ?_, ?_, hne, ?_⟩
  · intro fuel hf
    rw [hI.traverse_eq fuel hf, e1]
  · intro fuel hf
    rw [hI'.traverse_eq fuel hf, e4]
  · rw [List.filter_append, List.filter_cons]
    have hs : s.filter (fun x => decide (x.val.1 ≠ k)) = s :=
      List.filter_eq_self.mpr (fun x hx => by simpa using hne x (List.mem_append_left _ hx))
    have ht : t.filter (fun x => decide (x.val.1 ≠ k)) = t :=
      List.filter_eq_self.mpr (fun x hx => by simpa using hne x (List.mem_append_right _ hx))
    rw [hs, ht]
    simp [e2]

/-- C20: on a reachable table `erase(k)` and `erase(find(k))` leave the same table: the
same chain in every bucket, the same first node, the same size. When `k` is absent both leave
the table as it was. -/
theorem erase_key_eq_erase_find [Inhabited V] (m : UnorderedMap K V) (k : K)
    (hr : Reachable m) :
    (m.erase_it (m.find k)).1 = (m.erase k).1 ∧
    (∀ n, (m.erase_it (m.find k)).1.chain n = (m.erase k).1.chain n) ∧
    (m.erase_it (m.find k)).1._head = (m.erase k).1._head ∧
    (m.erase_it (m.find k)).1.size = (m.erase k).1.size ∧
    (m.find k = m.end_ → (m.erase k).1 = m ∧ (m.erase_it (m.find k)).1 = m) := by
  have e := hr.inv.erase_it_find k
  refine ⟨e, by intro n; rw [e], by rw [e], by rw [e], ?_⟩
  intro hf
  have h1 := erase_absent m k hf
  exact ⟨by rw [h1], by rw [e, h1]⟩

theorem erase_keeps_traversal_order_witness :
    Reachable demo_table ∧ demo_table.find 1 ≠ demo_table.end_ ∧
    (∃ xs n ys,
      n.val.1 = 1 ∧ demo_table.find 1 = some n.id ∧
      (∀ fuel, demo_table.size ≤ fuel → demo_table.traverse fuel = some (xs ++ n :: ys)) ∧
      (∀ fuel, (demo_table.erase 1).1.size ≤ fuel → (demo_table.erase 1).1.traverse fuel = some (xs ++ ys)) ∧
      (∀ x, x ∈ xs ++ ys → x.val.1 ≠ 1) ∧
      xs ++ ys = (xs ++ n :: ys).filter (fun x => decide (x.val.1 ≠ 1))) :=
  ⟨demo_reachable, by decide,
    erase_keeps_traversal_order demo_table 1 demo_reachable (by decide)⟩

theorem erase_key_eq_erase_find_witness :
    Reachable demo_table ∧
    ((demo_table.erase_it (demo_table.find 4)).1 = (demo_table.erase 4).1 ∧
    (∀ n, (demo_table.erase_it (demo_table.find 4)).1.chain n = (demo_table.erase 4).1.chain n) ∧
    (demo_table.erase_it (demo_table.find 4)).1._head = (demo_table.erase 4).1._head ∧
    (demo_table.erase_it (demo_table.find 4)).1.size = (demo_table.erase 4).1.size ∧
    (demo_table.find 4 = demo_table.end_ → (demo_table.erase 4).1 = demo_table ∧ (demo_table.erase_it (demo_table.find 4)).1 = demo_table)) :=
  ⟨demo_reachable, erase_key_eq_erase_find demo_table 4 demo_reachable⟩

theorem Inv.insert_values_chain {m : UnorderedMap K V} (hI : Inv m) (vs : List (K × V))
    (hnd : (vs.map Prod.fst).Nodup) (habs : ∀ v, v ∈ vs → m.find v.1 = none) (i : Nat) :
    ((insert_calls m (vs.map (fun v => (false, v)))).chain i).map HashNode.val
      = (vs.filter (fun v => decide (m._hash v.1 % m._bucket_count = i))).reverse
          ++ (m.chain i).map HashNode.val := by
  induction vs generalizing m with
  | nil => rfl
  | cons v rest ih =>
      have e : insert_calls m ((v :: rest).map (fun v => (false, v)))
          = insert_calls (m.insert v).1 (rest.map (fun v => (false, v))) := by
        show List.foldl insert_call (insert_call m (false, v)) _ = _
        rw [insert_call_eq]; rfl
      rw [List.map_cons, List.nodup_cons] at hnd
      have hv := habs v (List.mem_cons_self _ _)
      obtain ⟨_, _, _, _, _, _, hch, hbc, hh, _⟩ := hI.insert_absent_nodes v hv
      have habs' : ∀ w, w ∈ rest → (m.insert v).1.find w.1 = none := by
        intro w hw
        rw [(hI.insert_absent_find v hv w.1).1]
        have hne : w.1 ≠ v.1 := by
          intro h
          exact hnd.1 (by rw [← h]; exact List.mem_map_of_mem _ hw)
        rw [if_neg hne]
        exact habs w (List.mem_cons_of_mem _ hw)
      rw [e, ih (hI.insert v) hnd.2 habs', hbc, hh, hch i, List.filter_cons]
      by_cases hi : m._hash v.1 % m._bucket_count = i
      · subst hi
        simp
      · have hi' : ¬ i = m._hash v.1 % m._bucket_count := fun h => hi h.symm
        simp [hi, hi']

theorem Inv.filter_nodes_bucket {m : UnorderedMap K V} (hI : Inv m) (i : Nat) :
    m.nodes.filter (fun n => decide (m._hash n.val.1 % m._bucket_count = i)) = m.chain i := by
  by_cases hi : i < m._buckets.length
  · obtain ⟨pre, post, e1, e2⟩ := split_at m._buckets i hi
    have e1' : m._buckets = pre ++ m.chain i :: post := e1
    have hnodes := nodes_at m pre post _ e1'
    rw [hnodes, List.filter_append, List.filter_append]
    have h1 : pre.flatten.filter (fun n => decide (m._hash n.val.1 % m._bucket_count = i))
        = [] := by
      rw [List.filter_eq_nil_iff]
      intro x hx
      obtain ⟨j, hj, hxj⟩ := (mem_pre_flatten m._buckets pre _ x e1').mp hx
      have := hI.home j x hxj
      simp only [decide_eq_true_eq]
      omega
    have h2 : (m.chain i).filter (fun n => decide (m._hash n.val.1 % m._bucket_count = i))
        = m.chain i := by
      rw [List.filter_eq_self]
      intro x hx
      simpa using hI.home i x hx
    have h3 : post.flatten.filter (fun n => decide (m._hash n.val.1 % m._bucket_count = i))
        = [] := by
      rw [List.filter_eq_nil_iff]
      intro x hx
      simp only [decide_eq_true_eq]
      intro hxi
      have hxn : x ∈ m.nodes := by rw [hnodes]; simp [hx]
      have hxc := hI.mem_home x hxn
      rw [hxi] at hxc
      have hids := hI.ids
      rw [hnodes, List.map_append, List.map_append] at hids
      have hd := (List.nodup_append.mp (List.nodup_append.mp hids).2.1).2.2
      exact hd (List.mem_map_of_mem _ hxc) (List.mem_map_of_mem _ hx)
    rw [h1, h2, h3]
    simp
  · have hc : m.chain i = [] := by
      unfold UnorderedMap.chain
      rw [List.getD_eq_default _ _ (Nat.le_of_not_lt hi)]
    rw [hc, List.filter_eq_nil_iff]
    intro x _
    have := Nat.mod_lt (m._hash x.val.1) hI.pos
    rw [hI.len] at hi
    simp only [decide_eq_true_eq]
    omega

theorem Inv.copy_chain_reverse {other : UnorderedMap K V} (hO : Inv other)
    (m0 : UnorderedMap K V) (h0 : Inv m0) (hn : m0.nodes = [])
    (hbc : m0._bucket_count = other._bucket_count) (hh : m0._hash = other._hash) (i : Nat) :
    ((UnorderedMap.copy_buckets m0 other).chain i).map HashNode.val
      = ((other.chain i).map HashNode.val).reverse := by
  rw [copy_buckets_eq m0 other (by rw [hO.len, hbc])]
  have e : other.nodes.map (fun n => ((false, n.val) : Bool × (K × V)))
      = (other.nodes.map HashNode.val).map (fun v => (false, v)) := by
    rw [List.map_map]; rfl
  have hnd : ((other.nodes.map HashNode.val).map Prod.fst).Nodup := by
    rw [List.map_map]; exact hO.keys
  have habs : ∀ v, v ∈ other.nodes.map HashNode.val → m0.find v.1 = none := by
    intro v _
    rw [h0.find_none_iff, hn]
    simp
  have hc0 : m0.chain i = [] := by
    cases hci : m0.chain i with
    | nil => rfl
    | cons x xs =>
        have := mem_chain_nodes m0 i x (by rw [hci]; simp)
        rw [hn] at this; simp at this
  rw [e, h0.insert_values_chain _ hnd habs i, hc0, hbc, hh, List.map_nil, List.append_nil,
    List.filter_map, ← hO.filter_nodes_bucket i]
  rfl

theorem Inv.copy_construct_chain {t : UnorderedMap K V} (hO : Inv t) (i : Nat) :
    ((UnorderedMap.copy_construct t).chain i).map HashNode.val
      = ((t.chain i).map HashNode.val).reverse := by
  unfold UnorderedMap.copy_construct
  exact hO.copy_chain_reverse _
    (Inv.of_empty
      ({ _bucket_count := t._bucket_count, _size := 0,
         _buckets := List.replicate t._bucket_count [], _hash := t._hash, _head := none,
         allocated := t.allocated } : UnorderedMap K V) rfl hO.pos rfl rfl)
    (flatten_replicate_nil _) rfl rfl i

theorem Inv.copy_construct_fields {t : UnorderedMap K V} (hO : Inv t) :
    (UnorderedMap.copy_construct t)._bucket_count = t._bucket_count ∧
    (UnorderedMap.copy_construct t)._size = t._size := by
  unfold UnorderedMap.copy_construct
  obtain ⟨_, h1, _, h3, _⟩ := hO.copy_spec _
    (Inv.of_empty
      ({ _bucket_count := t._bucket_count, _size := 0,
         _buckets := List.replicate t._bucket_count [], _hash := t._hash, _head := none,
         allocated := t.allocated } : UnorderedMap K V) rfl hO.pos rfl rfl)
    (flatten_replicate_nil _) rfl
  exact ⟨h1, h3⟩

theorem buckets_map_ext {X : Type} (a b : UnorderedMap K V)
    (f g : List (HashNode K V) → List X) (hl : a._buckets.length = b._buckets.length)
    (h : ∀ i, f (a.chain i) = g (b.chain i)) : a._buckets.map f = b._buckets.map g := by
  apply List.ext_getElem
  · simp [hl]
  · intro i h1 h2
    simp only [List.length_map] at h1 h2
    have := h i
    unfold UnorderedMap.chain at this
    rw [List.getD_eq_getElem _ _ h1, List.getD_eq_getElem _ _ h2] at this
    simpa using this

theorem flatten_map_inj {X : Type} (B : List (List (HashNode K V)))
    (f g : List (HashNode K V) → List X) (hl : ∀ c, c ∈ B → (f c).length = (g c).length)
    (h : (B.map f).flatten = (B.map g).flatten) : ∀ c, c ∈ B → f c = g c := by
  induction B with
  | nil => intro c hc; simp at hc
  | cons x rest ih =>
      simp only [List.map_cons, List.flatten_cons] at h
      obtain ⟨h1, h2⟩ := List.append_inj h (hl x (List.mem_cons_self _ _))
      intro c hc
      rcases List.mem_cons.mp hc with rfl | hc
      · exact h1
      · exact ih (fun c hc => hl c (List.mem_cons_of_mem _ hc)) h2 c hc

theorem reverse_ne_of_nodup {X : Type} (l : List X) (hnd : l.Nodup) (h2 : 2 ≤ l.length) :
    l.reverse ≠ l := by
  intro h
  match l, hnd, h2, h with
  | [], _, h2, _ => simp at h2
  | [_], _, h2, _ => simp at h2
  | a :: b :: rest, hnd, _, h =>
      have h1 := congrArg List.getLast? h
      rw [List.getLast?_reverse] at h1
      simp only [List.head?_cons] at h1
      have h3 : (a :: b :: rest).getLast? = (b :: rest).getLast? := by
        simp [List.getLast?_cons_cons]
      rw [h3] at h1
      have h4 : a ∈ b :: rest := List.mem_of_getLast?_eq_some h1.symm
      exact (List.nodup_cons.mp hnd).1 h4

/-- C19: the copy constructor reverses every chain: in a copy of a reachable table `t` the
entries along the chain of bucket `n` are those of `t` in reverse order, so the traversal of
the copy visits the entries in another order than that of `t` as soon as a bucket of `t`
holds two entries or more; and in a copy of a copy of `t` every chain and the traversal have
the entries in the order of `t`. -/
theorem copy_reverses_chains [Inhabited V] (t : UnorderedMap K V) (hr : Reachable t) :
    (∀ n, ((UnorderedMap.copy_construct t).chain n).map HashNode.val
      = ((t.chain n).map HashNode.val).reverse) ∧
    (∀ n, ((UnorderedMap.copy_construct (UnorderedMap.copy_construct t)).chain n).map
      HashNode.val = (t.chain n).map HashNode.val) ∧
    ∃ l lc l2,
      (∀ fuel, t.size ≤ fuel → t.traverse fuel = some l) ∧
      (∀ fuel, (UnorderedMap.copy_construct t).size ≤ fuel →
        (UnorderedMap.copy_construct t).traverse fuel = some lc) ∧
      (∀ fuel, (UnorderedMap.copy_construct (UnorderedMap.copy_construct t)).size ≤ fuel →
        (UnorderedMap.copy_construct (UnorderedMap.copy_construct t)).traverse fuel
          = some l2) ∧
      ((∃ n, 2 ≤ t.bucket_size n) → lc.map HashNode.val ≠ l.map HashNode.val) ∧
      l2.map HashNode.val = l.map HashNode.val := by
  have hO := hr.inv
  have hC := hO.copy_construct
  have hCC := hC.copy_construct
  have hlen1 : (UnorderedMap.copy_construct t)._buckets.length = t._buckets.length := by
    rw [hC.len, hO.len]; exact hO.copy_construct_fields.1
  have hlen2 : (UnorderedMap.copy_construct (UnorderedMap.copy_construct t))._buckets.length
      = t._buckets.length := by
    rw [hCC.len, hC.copy_construct_fields.1, ← hC.len, hlen1]
  have hch2 : ∀ n, ((UnorderedMap.copy_construct (UnorderedMap.copy_construct t)).chain n).map
      HashNode.val = (t.chain n).map HashNode.val := by
    intro n
    rw [hC.copy_construct_chain n, hO.copy_construct_chain n, List.reverse_reverse]
  refine ⟨hO.copy_construct_chain, hch2, t.nodes, (UnorderedMap.copy_construct t).nodes,
    (UnorderedMap.copy_construct (UnorderedMap.copy_construct t)).nodes,
    fun fuel hf => hO.traverse_eq fuel hf, fun fuel hf => hC.traverse_eq fuel hf,
    fun fuel hf => hCC.traverse_eq fuel hf, ?_, ?_⟩
  · rintro ⟨n, hn⟩ heq
    rw [bucket_size_eq] at hn
    unfold UnorderedMap.nodes at heq
    rw [List.map_flatten, List.map_flatten,
      buckets_map_ext (UnorderedMap.copy_construct t) t (List.map HashNode.val)
        (fun c => (c.map HashNode.val).reverse) hlen1 hO.copy_construct_chain] at heq
    have hmem : t.chain n ∈ t._buckets := by
      unfold UnorderedMap.chain at hn ⊢
      by_cases hi : n < t._buckets.length
      · rw [List.getD_eq_getElem _ _ hi]; exact List.getElem_mem hi
      · rw [List.getD_eq_default _ _ (Nat.le_of_not_lt hi)] at hn
        simp at hn
    have key := flatten_map_inj t._buckets (fun c => (c.map HashNode.val).reverse)
      (List.map HashNode.val) (fun c _ => by simp) heq (t.chain n) hmem
    have hnd : ((t.chain n).map HashNode.val).Nodup := by
      have h1 := hO.keys.sublist ((Inv.chain_sublist t n).map (fun x => x.val.1))
      have h2 : (t.chain n).map (fun x => x.val.1)
          = ((t.chain n).map HashNode.val).map Prod.fst := by
        rw [List.map_map]; rfl
      rw [h2] at h1
      exact List.Nodup.of_map _ h1
    exact reverse_ne_of_nodup _ hnd (by rw [List.length_map]; exact hn) key
  · unfold UnorderedMap.nodes
    rw [List.map_flatten, List.map_flatten,
      buckets_map_ext (UnorderedMap.copy_construct (UnorderedMap.copy_construct t)) t
        (List.map HashNode.val) (List.map HashNode.val) hlen2 hch2]

theorem copy_reverses_chains_witness :
    Reachable demo_table ∧
    ((∀ n, ((UnorderedMap.copy_construct demo_table).chain n).map HashNode.val
      = ((demo_table.chain n).map HashNode.val).reverse) ∧
    (∀ n, ((UnorderedMap.copy_construct (UnorderedMap.copy_construct demo_table)).chain n).map
      HashNode.val = (demo_table.chain n).map HashNode.val) ∧
    ∃ l lc l2,
      (∀ fuel, demo_table.size ≤ fuel → demo_table.traverse fuel = some l) ∧
      (∀ fuel, (UnorderedMap.copy_construct demo_table).size ≤ fuel →
        (UnorderedMap.copy_construct demo_table).traverse fuel = some lc) ∧
      (∀ fuel, (UnorderedMap.copy_construct (UnorderedMap.copy_construct demo_table)).size ≤ fuel →
        (UnorderedMap.copy_construct (UnorderedMap.copy_construct demo_table)).traverse fuel
          = some l2) ∧
      ((∃ n, 2 ≤ demo_table.bucket_size n) → lc.map HashNode.val ≠ l.map HashNode.val) ∧
      l2.map HashNode.val = l.map HashNode.val) :=
  ⟨demo_reachable, copy_reverses_chains demo_table demo_reachable⟩

end table

end HashMapPlus
